import Mathlib

/-!
Verification development for the AFF4 image stream codec
(`pyaff4/aff4_image.py`): a chunked, compressed, randomly addressable
byte stream stored as bevy data/index segments inside a volume.

Bytes are modelled as `Nat` values, byte strings as `List Nat`.  The
resolver/volume pair is modelled by a `has_volume` flag and an
association list of persisted segments keyed by bevy ordinal (the data
segment and its index segment are created together by `_FlushBevy`, so
they are stored as one entry).  Python 2 semantics are mirrored: `/` is
floor division (`Int.fdiv` where negative values can occur),
`struct.pack("<I", v)` fails for `v ≥ 2^32`, and `struct.unpack` fails
when the buffer length is not a multiple of the format size.  The
unbounded `while` loops of the source are given explicit fuel; the fuel
chosen at each call site is provably sufficient whenever the Python
loop terminates (`chunk_size = 0`, where the Python write loop would
not terminate and `Read` would raise `ZeroDivisionError`, is outside
the claims, which fix positive configurations).
-/

/-- Error outcomes of the stream operations, mirroring the `IOError`s
raised by the source plus the failure modes of the external calls it
makes (`struct.pack`/`struct.unpack`, decompression, segment opening). -/
inductive Err where
  | noStorage
  | segmentMissing
  | indexEmpty
  | indexTooShort
  | badIndex
  | codec
  | packOverflow
  | nonTermination
deriving DecidableEq, Repr

/-- The three compression tags of the lexicon. -/
inductive Compression where
  | zlib
  | snappy
  | stored
deriving DecidableEq, Repr

/-- Modelled from the spec: the ZLIB codec is an external library used
as a pure pair compress/decompress with `decompress (compress x) = x`
for every `x`, including empty input.  Real zlib output starts with a
two-byte header and is never empty; the model keeps those properties. -/
def zlibCompress (data : List Nat) : List Nat :=
  120 :: 156 :: data

/-- Modelled from the spec: ZLIB decompression; fails on data not
produced by `zlibCompress` (decompression failures surface as errors). -/
def zlibDecompress (data : List Nat) : Except Err (List Nat) :=
  match data with
  | 120 :: 156 :: rest => .ok rest
  | _ => .error .codec

/-- Modelled from the spec: the SNAPPY codec, an external library used
as a pure pair with round-trip identity.  Real snappy output begins
with the encoded uncompressed length and is never empty. -/
def snappyCompress (data : List Nat) : List Nat :=
  (data.length % 256) :: data

/-- Modelled from the spec: SNAPPY decompression; fails on data not
produced by `snappyCompress`. -/
def snappyDecompress (data : List Nat) : Except Err (List Nat) :=
  match data with
  | n :: rest => if n = rest.length % 256 then .ok rest else .error .codec
  | [] => .error .codec

/-- Per-chunk compression dispatch of `FlushChunk` (zlib.compress,
snappy.compress, or the identity for STORED). -/
def Compression.compress : Compression → List Nat → List Nat
  | .zlib, d => zlibCompress d
  | .snappy, d => snappyCompress d
  | .stored, d => d

/-- Per-chunk decompression dispatch of `_ReadChunkFromBevy`. -/
def Compression.decompress : Compression → List Nat → Except Err (List Nat)
  | .zlib, d => zlibDecompress d
  | .snappy, d => snappyDecompress d
  | .stored, d => .ok d

/-- The four little-endian bytes of `struct.pack("<I", n)` (the caller
checks `n < 2^32`; Python raises `struct.error` beyond that). -/
def pack32 (n : Nat) : List Nat :=
  [n % 256, n / 256 % 256, n / 65536 % 256, n / 16777216 % 256]

/-- Value of four little-endian bytes. -/
def unpack32 (a b c d : Nat) : Nat :=
  a + 256 * b + 65536 * c + 16777216 * d

/-- Decoding of `struct.unpack("<" + "I" * (len / 4), data)` as done by
`_ReadPartial`; `none` when the byte length is not a multiple of 4
(`struct.error` in Python, since `unpack` demands an exact size). -/
def unpackWords : List Nat → Option (List Nat)
  | [] => some []
  | a :: b :: c :: d :: rest => (unpackWords rest).map (fun l => unpack32 a b c d :: l)
  | _ => none

/-- State of one `AFF4Image` stream session together with its view of
the resolver/volume: `has_volume` says whether `AFF4_STORED` is
recorded for the stream, and `store` holds the persisted bevies as
`(bevy ordinal, index segment bytes, data segment bytes)` entries. -/
structure AFF4Image where
  chunk_size : Nat
  chunks_per_segment : Nat
  compression : Compression
  size : Nat
  readptr : Nat
  buffer : List Nat
  bevy : List Nat
  bevy_index : List Nat
  chunk_count_in_bevy : Nat
  bevy_number : Nat
  dirty : Bool
  has_volume : Bool
  store : List (Nat × List Nat × List Nat)
deriving DecidableEq, Repr

/-- Source `_FlushBevy`: resolve the owning volume (IOError if the
stream has no recorded storage), return unchanged if the bevy blob is
empty, otherwise persist the index and data segments and reset the
in-memory bevy state. -/
def AFF4Image.FlushBevy (st : AFF4Image) : Except Err AFF4Image :=
  if st.has_volume = false then .error .noStorage
  else if st.bevy = [] then .ok st
  else .ok { st with
    store := st.store ++ [(st.bevy_number, st.bevy_index, st.bevy)],
    chunk_count_in_bevy := 0,
    bevy_number := st.bevy_number + 1,
    bevy := [],
    bevy_index := [] }

/-- Source `FlushChunk`: record the current blob length as the chunk's
offset, compress the chunk, append the packed offset to the index and
the compressed bytes to the blob, bump the chunk count, and flush the
bevy when it is full.  `struct.pack("<I", _)` fails for offsets not
fitting 32 bits. -/
def AFF4Image.FlushChunk (st : AFF4Image) (chunk : List Nat) : Except Err AFF4Image :=
  let bevy_offset := st.bevy.length
  if bevy_offset < 4294967296 then
    let compressed_chunk := st.compression.compress chunk
    let st' := { st with
      bevy_index := st.bevy_index ++ pack32 bevy_offset,
      bevy := st.bevy ++ compressed_chunk,
      chunk_count_in_bevy := st.chunk_count_in_bevy + 1 }
    if st'.chunk_count_in_bevy ≥ st.chunks_per_segment then st'.FlushBevy else .ok st'
  else .error .packOverflow

/-- The `while len(self.buffer) > self.chunk_size` loop of `Write`,
with fuel; `Write` passes the buffer length, which suffices whenever
`chunk_size > 0` (each pass removes `chunk_size` bytes). -/
def AFF4Image.writeLoop : Nat → AFF4Image → Except Err AFF4Image
  | 0, st =>
    if st.buffer.length > st.chunk_size then .error .nonTermination else .ok st
  | fuel + 1, st =>
    if st.buffer.length > st.chunk_size then
      let chunk := st.buffer.take st.chunk_size
      let st' := { st with buffer := st.buffer.drop st.chunk_size }
      match st'.FlushChunk chunk with
      | .error e => .error e
      | .ok st'' => AFF4Image.writeLoop fuel st''
    else .ok st

/-- Source `Write`: mark dirty (base-class `MarkDirty` sets the dirty
flag), append the data to the pending buffer, cut full chunks while
the buffer strictly exceeds one chunk, advance the write cursor and
raise `size` to it.  The Python method also returns `len(data)`;
only the state is modelled. -/
def AFF4Image.Write (st : AFF4Image) (data : List Nat) : Except Err AFF4Image :=
  let st1 := { st with dirty := true, buffer := st.buffer ++ data }
  match AFF4Image.writeLoop st1.buffer.length st1 with
  | .error e => .error e
  | .ok st2 =>
    let rp := st2.readptr + data.length
    .ok { st2 with readptr := rp, size := if rp > st2.size then rp else st2.size }

/-- Source `Flush`: when dirty, flush the pending buffer as the final
(possibly short) chunk, flush the bevy, persist the metadata
properties via the resolver (kept in the state fields), and delegate
to the base-class flush, which clears the dirty flag (modelled from
the spec: dirty is cleared implicitly after a flush). -/
def AFF4Image.Flush (st : AFF4Image) : Except Err AFF4Image :=
  if st.dirty then
    match st.FlushChunk st.buffer with
    | .error e => .error e
    | .ok st1 =>
      match st1.FlushBevy with
      | .error e => .error e
      | .ok st2 => .ok { st2 with dirty := false }
  else .ok { st with dirty := false }

/-- Base-class absolute seek (`Seek(offset, whence=0)`); modelled from
the spec: the read cursor is positioned by the external stream base. -/
def AFF4Image.Seek (st : AFF4Image) (offset : Nat) : AFF4Image :=
  { st with readptr := offset }

/-- Opening the segments of one bevy via `AFF4FactoryOpen`; fails when
the bevy was never persisted (modelled from the spec: volume `Open`
fails if the member is absent). -/
def lookupSegment (store : List (Nat × List Nat × List Nat)) (bevy_id : Nat) :
    Option (List Nat × List Nat) :=
  match store.find? (fun e => e.1 == bevy_id) with
  | some e => some e.2
  | none => none

/-- Source `_ReadChunkFromBevy` for one chunk: check the decoded index,
resolve the compressed byte range (consume to the end of the data
segment for the last index entry, using the segment's current position
`tell`), seek and read (segment reads clamp at end of data, as the
byte-backed segment streams do), and decompress.  Returns the
decompressed chunk together with the segment position after the read. -/
def readChunkFromBevy (comp : Compression) (cps : Nat) (chunk_id : Nat)
    (blob : List Nat) (tell : Nat) (bevy_index : List Nat) :
    Except Err (List Nat × Nat) :=
  let chunk_id_in_bevy := chunk_id % cps
  let index_size := bevy_index.length
  if index_size = 0 then .error .indexEmpty
  else if chunk_id_in_bevy ≥ index_size then .error .indexTooShort
  else
    let compressed_chunk_size :=
      if chunk_id_in_bevy = index_size - 1 then blob.length - tell
      else bevy_index.getD (chunk_id_in_bevy + 1) 0 - bevy_index.getD chunk_id_in_bevy 0
    let off := bevy_index.getD chunk_id_in_bevy 0
    let cbuffer := (blob.drop off).take compressed_chunk_size
    match comp.decompress cbuffer with
    | .error e => .error e
    | .ok d => .ok (d, off + cbuffer.length)

/-- Inner `while chunks_to_read > 0` loop of `_ReadPartial`, reading
consecutive chunks from one opened bevy until the count is exhausted
or the next chunk falls into the next bevy.  Returns the concatenated
data, the chunks read, the next chunk id and the remaining count. -/
def readSpanInner (comp : Compression) (cps : Nat) (blob : List Nat)
    (index : List Nat) (bevy_id : Nat) :
    Nat → Nat → Nat → Except Err (List Nat × Nat × Nat × Nat)
  | chunk_id, 0, _tell => .ok ([], 0, chunk_id, 0)
  | chunk_id, count + 1, tell =>
    match readChunkFromBevy comp cps chunk_id blob tell index with
    | .error e => .error e
    | .ok (data, tell') =>
      let chunk_id' := chunk_id + 1
      if bevy_id < chunk_id' / cps then .ok (data, 1, chunk_id', count)
      else
        match readSpanInner comp cps blob index bevy_id chunk_id' count tell' with
        | .error e => .error e
        | .ok (d, k, cid, rem) => .ok (data ++ d, k + 1, cid, rem)

/-- Source `_ReadPartial` (the spec's bevy-group reader `ReadSpan`):
loop opening the index and data segments of the bevy holding the
current chunk and reading chunks from it; the outer loop reopens for
the next bevy after a boundary crossing.  Fuel bounds the outer loop;
each round reads at least one chunk, so fuel equal to the chunk count
suffices.  Returns the number of chunks read and the data. -/
def readSpan (comp : Compression) (cps : Nat)
    (store : List (Nat × List Nat × List Nat)) :
    Nat → Nat → Nat → Except Err (Nat × List Nat)
  | _, _, 0 => .ok (0, [])
  | 0, _, _ + 1 => .error .nonTermination
  | fuel + 1, chunk_id, count + 1 =>
    let bevy_id := chunk_id / cps
    match lookupSegment store bevy_id with
    | none => .error .segmentMissing
    | some (indexBytes, blob) =>
      match unpackWords indexBytes with
      | none => .error .badIndex
      | some index =>
        match readSpanInner comp cps blob index bevy_id chunk_id (count + 1) 0 with
        | .error e => .error e
        | .ok (data, k, cid, rem) =>
          match readSpan comp cps store fuel cid rem with
          | .error e => .error e
          | .ok (k2, d2) => .ok (k + k2, data ++ d2)

/-- The `while chunks_to_read > 0` loop of `Read` around
`_ReadPartial`: stop on a zero chunk count, otherwise subtract the
chunks read and append the data (the source does not advance
`chunk_id` here; `_ReadPartial` only returns once the full count is
read or an error is raised, so the loop body runs at most once with a
positive count). -/
def readLoop (comp : Compression) (cps : Nat)
    (store : List (Nat × List Nat × List Nat)) :
    Nat → Nat → Int → List Nat → Except Err (List Nat)
  | 0, _, ctr, acc => if ctr > 0 then .error .nonTermination else .ok acc
  | fuel + 1, chunk_id, ctr, acc =>
    if ctr > 0 then
      match readSpan comp cps store ctr.toNat chunk_id ctr.toNat with
      | .error e => .error e
      | .ok (k, data) =>
        if k = 0 then .ok acc
        else readLoop comp cps store fuel chunk_id (ctr - k) (acc ++ data)
    else .ok acc

/-- Python slice `l[:n]` for a possibly negative `n` (a negative bound
counts from the end). -/
def pySlice (n : Int) (l : List Nat) : List Nat :=
  if 0 ≤ n then l.take n.toNat else l.take ((l.length : Int) + n).toNat

/-- Source `Read`: clamp the length by `size - readptr` (this can be
negative in Python, hence `Int`), compute the starting chunk and the
in-chunk offset, visit `length / chunk_size + 1` chunks (Python 2
floor division), trim the initial offset from the front and truncate
to the clamped length.  The read cursor is not advanced. -/
def AFF4Image.Read (st : AFF4Image) (length : Nat) : Except Err (List Nat) :=
  let len : Int := min (length : Int) ((st.size : Int) - (st.readptr : Int))
  let initial_chunk_offset := st.readptr % st.chunk_size
  let chunks_to_read : Int := Int.fdiv len (st.chunk_size : Int) + 1
  let chunk_id := st.readptr / st.chunk_size
  match readLoop st.compression st.chunks_per_segment st.store
      chunks_to_read.toNat chunk_id chunks_to_read [] with
  | .error e => .error e
  | .ok result =>
    let result1 := if initial_chunk_offset ≠ 0 then result.drop initial_chunk_offset else result
    .ok (pySlice len result1)

/-- A fresh stream as produced by `NewAFF4Image` followed by
`LoadFromURN`: storage recorded, chosen chunking/compression
configuration, empty write-side state. -/
def freshImage (cs cps : Nat) (comp : Compression) : AFF4Image :=
  { chunk_size := cs
    chunks_per_segment := cps
    compression := comp
    size := 0
    readptr := 0
    buffer := []
    bevy := []
    bevy_index := []
    chunk_count_in_bevy := 0
    bevy_number := 0
    dirty := false
    has_volume := true
    store := [] }

/-- Write a byte sequence to a fresh stream and flush it. -/
def writeFlushed (cs cps : Nat) (comp : Compression) (B : List Nat) :
    Except Err AFF4Image :=
  match (freshImage cs cps comp).Write B with
  | .error e => .error e
  | .ok st => st.Flush

/-- Round trip of the claims: write `B` to a fresh stream, flush, seek
to offset 0 and read `B.length` bytes. -/
def roundTrip (cs cps : Nat) (comp : Compression) (B : List Nat) :
    Except Err (List Nat) :=
  match writeFlushed cs cps comp B with
  | .error e => .error e
  | .ok st => (st.Seek 0).Read B.length

/-- Write `B` to a fresh stream, flush, seek to offset `o` and read
`L` bytes. -/
def readAt (cs cps : Nat) (comp : Compression) (B : List Nat) (o L : Nat) :
    Except Err (List Nat) :=
  match writeFlushed cs cps comp B with
  | .error e => .error e
  | .ok st => (st.Seek o).Read L

/-! ### Small arithmetic and decoding lemmas -/

theorem fdiv_ofNat_ofNat (a b : Nat) :
    Int.fdiv (Int.ofNat a) (Int.ofNat b) = Int.ofNat (a / b) := by
  cases a with
  | zero => simp [Int.fdiv]
  | succ a => rfl

theorem fdiv_negSucc_succ (a b : Nat) :
    Int.fdiv (Int.negSucc a) (Int.ofNat (b + 1)) = Int.negSucc (a / (b + 1)) := rfl

theorem unpack32_pack32 (n : Nat) (h : n < 4294967296) (rest : List Nat) :
    unpackWords (pack32 n ++ rest) = (unpackWords rest).map (fun l => n :: l) := by
  have e : pack32 n ++ rest =
      n % 256 :: n / 256 % 256 :: n / 65536 % 256 :: n / 16777216 % 256 :: rest := rfl
  rw [e]
  have e2 : unpackWords
        (n % 256 :: n / 256 % 256 :: n / 65536 % 256 :: n / 16777216 % 256 :: rest) =
      (unpackWords rest).map (fun l =>
        unpack32 (n % 256) (n / 256 % 256) (n / 65536 % 256) (n / 16777216 % 256) :: l) := rfl
  rw [e2]
  have hv : unpack32 (n % 256) (n / 256 % 256) (n / 65536 % 256) (n / 16777216 % 256) = n := by
    unfold unpack32; omega
  rw [hv]

theorem unpackWords_length : ∀ (l o : List Nat), unpackWords l = some o → l.length = 4 * o.length
  | [], o, h => by
    simp only [show unpackWords [] = some [] from rfl, Option.some.injEq] at h
    subst h; rfl
  | a :: b :: c :: d :: rest, o, h => by
    simp only [unpackWords] at h
    cases hr : unpackWords rest with
    | none => rw [hr] at h; simp at h
    | some o' =>
      rw [hr] at h
      simp only [Option.map_some', Option.some.injEq] at h
      subst h
      have ih := unpackWords_length rest o' hr
      simp only [List.length_cons, ih]
      omega
  | [_], _, h => by simp [unpackWords] at h
  | [_, _], _, h => by simp [unpackWords] at h
  | [_, _, _], _, h => by simp [unpackWords] at h

theorem decompress_error_eq_codec (comp : Compression) (l : List Nat) (e : Err)
    (h : comp.decompress l = .error e) : e = .codec := by
  cases comp <;> simp only [Compression.decompress] at h
  · unfold zlibDecompress at h
    split at h <;> simp_all
  · unfold snappyDecompress at h
    split at h
    · split at h <;> simp_all
    · simp_all
  · simp_all

theorem decompress_compress (comp : Compression) (x : List Nat) :
    comp.decompress (comp.compress x) = .ok x := by
  cases comp <;> simp [Compression.decompress, Compression.compress,
    zlibDecompress, zlibCompress, snappyDecompress, snappyCompress]

/-! ### Unfolding equations (zeta-reduced forms of the definitions) -/

theorem FlushChunk_eq (st : AFF4Image) (c : List Nat) :
    st.FlushChunk c =
      if st.bevy.length < 4294967296 then
        if st.chunk_count_in_bevy + 1 ≥ st.chunks_per_segment then
          AFF4Image.FlushBevy { st with
            bevy_index := st.bevy_index ++ pack32 st.bevy.length,
            bevy := st.bevy ++ st.compression.compress c,
            chunk_count_in_bevy := st.chunk_count_in_bevy + 1 }
        else .ok { st with
            bevy_index := st.bevy_index ++ pack32 st.bevy.length,
            bevy := st.bevy ++ st.compression.compress c,
            chunk_count_in_bevy := st.chunk_count_in_bevy + 1 }
      else .error .packOverflow := rfl

theorem writeLoop_succ (fuel : Nat) (st : AFF4Image) :
    AFF4Image.writeLoop (fuel + 1) st =
      if st.buffer.length > st.chunk_size then
        match AFF4Image.FlushChunk { st with buffer := st.buffer.drop st.chunk_size }
            (st.buffer.take st.chunk_size) with
        | .error e => .error e
        | .ok st'' => AFF4Image.writeLoop fuel st''
      else .ok st := rfl

theorem Write_eq (st : AFF4Image) (data : List Nat) :
    st.Write data =
      match AFF4Image.writeLoop (st.buffer ++ data).length
          { st with dirty := true, buffer := st.buffer ++ data } with
      | .error e => .error e
      | .ok st2 => .ok { st2 with
          readptr := st2.readptr + data.length,
          size := if st2.readptr + data.length > st2.size then st2.readptr + data.length
                  else st2.size } := rfl

theorem readChunkFromBevy_eq (comp : Compression) (cps chunk_id : Nat)
    (blob : List Nat) (tell : Nat) (index : List Nat) :
    readChunkFromBevy comp cps chunk_id blob tell index =
      if index.length = 0 then .error .indexEmpty
      else if chunk_id % cps ≥ index.length then .error .indexTooShort
      else
        match comp.decompress ((blob.drop (index.getD (chunk_id % cps) 0)).take
            (if chunk_id % cps = index.length - 1 then blob.length - tell
             else index.getD (chunk_id % cps + 1) 0 - index.getD (chunk_id % cps) 0)) with
        | .error e => .error e
        | .ok d => .ok (d, index.getD (chunk_id % cps) 0 +
            ((blob.drop (index.getD (chunk_id % cps) 0)).take
              (if chunk_id % cps = index.length - 1 then blob.length - tell
               else index.getD (chunk_id % cps + 1) 0 -
                 index.getD (chunk_id % cps) 0)).length) := rfl

theorem Read_eq (st : AFF4Image) (length : Nat) :
    st.Read length =
      match readLoop st.compression st.chunks_per_segment st.store
          (Int.fdiv (min (length : Int) ((st.size : Int) - (st.readptr : Int)))
              (st.chunk_size : Int) + 1).toNat
          (st.readptr / st.chunk_size)
          (Int.fdiv (min (length : Int) ((st.size : Int) - (st.readptr : Int)))
              (st.chunk_size : Int) + 1) [] with
      | .error e => .error e
      | .ok result =>
        .ok (pySlice (min (length : Int) ((st.size : Int) - (st.readptr : Int)))
          (if st.readptr % st.chunk_size ≠ 0 then result.drop (st.readptr % st.chunk_size)
           else result)) := rfl

/-! ### Field-preservation lemmas for the write-side operations -/

theorem FlushBevy_fields {st st' : AFF4Image} (h : st.FlushBevy = .ok st') :
    st'.buffer = st.buffer ∧ st'.chunk_size = st.chunk_size ∧
    st'.chunks_per_segment = st.chunks_per_segment ∧ st'.compression = st.compression ∧
    st'.size = st.size ∧ st'.readptr = st.readptr ∧ st'.dirty = st.dirty ∧
    st'.has_volume = st.has_volume := by
  unfold AFF4Image.FlushBevy at h
  split at h
  · exact absurd h (by simp)
  · split at h <;> · cases h; exact ⟨rfl, rfl, rfl, rfl, rfl, rfl, rfl, rfl⟩

theorem FlushChunk_fields {st st' : AFF4Image} {c : List Nat}
    (h : st.FlushChunk c = .ok st') :
    st'.buffer = st.buffer ∧ st'.chunk_size = st.chunk_size ∧
    st'.chunks_per_segment = st.chunks_per_segment ∧ st'.compression = st.compression ∧
    st'.size = st.size ∧ st'.readptr = st.readptr ∧ st'.dirty = st.dirty ∧
    st'.has_volume = st.has_volume := by
  rw [FlushChunk_eq] at h
  split at h
  · split at h
    · simpa using FlushBevy_fields h
    · cases h; exact ⟨rfl, rfl, rfl, rfl, rfl, rfl, rfl, rfl⟩
  · exact absurd h (by simp)

theorem writeLoop_fields : ∀ {fuel : Nat} {st st' : AFF4Image},
    AFF4Image.writeLoop fuel st = .ok st' →
    st'.chunk_size = st.chunk_size ∧ st'.chunks_per_segment = st.chunks_per_segment ∧
    st'.compression = st.compression ∧ st'.size = st.size ∧ st'.readptr = st.readptr ∧
    st'.has_volume = st.has_volume := by
  intro fuel
  induction fuel with
  | zero =>
    intro st st' h
    unfold AFF4Image.writeLoop at h
    split at h
    · exact absurd h (by simp)
    · cases h; exact ⟨rfl, rfl, rfl, rfl, rfl, rfl⟩
  | succ fuel ih =>
    intro st st' h
    rw [writeLoop_succ] at h
    split at h
    · split at h
      · exact absurd h (by simp)
      next st'' hfc =>
        have h1 := FlushChunk_fields hfc
        have h2 := ih h
        refine ⟨?_, ?_, ?_, ?_, ?_, ?_⟩ <;> simp only [h2, h1]
    · cases h; exact ⟨rfl, rfl, rfl, rfl, rfl, rfl⟩

theorem writeLoop_buffer_le : ∀ {fuel : Nat} {st st' : AFF4Image},
    AFF4Image.writeLoop fuel st = .ok st' → st'.buffer.length ≤ st'.chunk_size := by
  intro fuel
  induction fuel with
  | zero =>
    intro st st' h
    unfold AFF4Image.writeLoop at h
    split at h
    · exact absurd h (by simp)
    next hle => cases h; omega
  | succ fuel ih =>
    intro st st' h
    rw [writeLoop_succ] at h
    split at h
    · split at h
      · exact absurd h (by simp)
      · exact ih h
    next hle => cases h; omega

/-! ### Claim C3: the concrete worked example -/

/-- C3: with chunk_size=4, chunks_per_segment=2 and compression STORED,
writing the 10 bytes "ABCDEFGHIJ" flushes chunks "ABCD" and "EFGH" as
bevy 0 with index entries [0,4], leaves "IJ" pending until Flush, which
emits bevy 1 containing the single chunk "IJ" with index [0]; afterwards
size equals 10, Read(10) from offset 0 returns "ABCDEFGHIJ", and Read(3)
from offset 4 returns "EFG".  (Bytes: "A" = 65 etc.) -/
theorem C3_concrete_example :
    (((freshImage 4 2 .stored).Write [65, 66, 67, 68, 69, 70, 71, 72, 73, 74]).map
        (fun st => (st.store, st.buffer)) =
      .ok ([(0, [0, 0, 0, 0, 4, 0, 0, 0], [65, 66, 67, 68, 69, 70, 71, 72])], [73, 74])) ∧
    unpackWords [0, 0, 0, 0, 4, 0, 0, 0] = some [0, 4] ∧
    ((writeFlushed 4 2 .stored [65, 66, 67, 68, 69, 70, 71, 72, 73, 74]).map
        (fun st => (st.store, st.size)) =
      .ok ([(0, [0, 0, 0, 0, 4, 0, 0, 0], [65, 66, 67, 68, 69, 70, 71, 72]),
            (1, [0, 0, 0, 0], [73, 74])], 10)) ∧
    unpackWords [0, 0, 0, 0] = some [0] ∧
    roundTrip 4 2 .stored [65, 66, 67, 68, 69, 70, 71, 72, 73, 74] =
      .ok [65, 66, 67, 68, 69, 70, 71, 72, 73, 74] ∧
    readAt 4 2 .stored [65, 66, 67, 68, 69, 70, 71, 72, 73, 74] 4 3 =
      .ok [69, 70, 71] :=
  ⟨rfl, rfl, rfl, rfl, rfl, rfl⟩

/-! ### Claim C4: pending buffer size after Write -/

/-- C4 counterexample: writing exactly chunk_size bytes to a fresh
stream leaves the pending buffer holding exactly chunk_size bytes (4),
not strictly fewer as claimed (the write loop cuts a chunk only while
the buffer strictly exceeds chunk_size). -/
theorem C4_counterexample :
    ((freshImage 4 2 .stored).Write [65, 66, 67, 68]).map
        (fun st => (st.buffer.length, st.chunk_size)) = .ok (4, 4) := rfl

/-- C4 amended: after every successful Write the pending buffer holds
at most chunk_size bytes (not strictly fewer); the bound is tight by
the counterexample. -/
theorem C4_buffer_le_chunk_size (st : AFF4Image) (data : List Nat) (st' : AFF4Image)
    (h : st.Write data = .ok st') :
    st'.buffer.length ≤ st'.chunk_size ∧ st'.chunk_size = st.chunk_size := by
  rw [Write_eq] at h
  split at h
  · exact absurd h (by simp)
  next st2 hloop =>
    cases h
    have h1 := writeLoop_buffer_le hloop
    have h2 := writeLoop_fields hloop
    exact ⟨h1, h2.1⟩

/-- C4 witness. -/
theorem C4_witness :
    (freshImage 4 2 .stored).Write [65, 66] =
      .ok { freshImage 4 2 .stored with
              dirty := true, buffer := [65, 66], readptr := 2, size := 2 } ∧
    ([65, 66] : List Nat).length ≤ 4 :=
  ⟨rfl, (C4_buffer_le_chunk_size (freshImage 4 2 .stored) [65, 66]
      { freshImage 4 2 .stored with
          dirty := true, buffer := [65, 66], readptr := 2, size := 2 } rfl).1⟩

/-! ### Claim C5: index-corruption errors in chunk range resolution -/

/-- C5: resolving a chunk during a read raises an index-corruption
error (empty index, or index too short) if and only if the decoded
bevy index is empty or chunk_id mod chunks_per_segment is at least the
index size; when the condition holds no data is returned. -/
theorem C5_index_corruption_iff (comp : Compression) (cps chunk_id : Nat)
    (blob : List Nat) (tell : Nat) (index : List Nat) :
    (∃ e, readChunkFromBevy comp cps chunk_id blob tell index = .error e ∧
        (e = Err.indexEmpty ∨ e = Err.indexTooShort)) ↔
      (index.length = 0 ∨ index.length ≤ chunk_id % cps) := by
  rw [readChunkFromBevy_eq]
  by_cases h1 : index.length = 0
  · simp [h1]
  · by_cases h2 : index.length ≤ chunk_id % cps
    · simp [h1, h2, ge_iff_le]
    · rw [if_neg h1, if_neg (by simpa [ge_iff_le] using h2)]
      constructor
      · rintro ⟨e, he, hor⟩
        cases hd : comp.decompress ((blob.drop (index.getD (chunk_id % cps) 0)).take
            (if chunk_id % cps = index.length - 1 then blob.length - tell
             else index.getD (chunk_id % cps + 1) 0 - index.getD (chunk_id % cps) 0)) with
        | error e' =>
          rw [hd] at he
          cases he
          have := decompress_error_eq_codec _ _ _ hd
          subst this
          rcases hor with h | h <;> cases h
        | ok d =>
          rw [hd] at he
          cases he
      · intro h
        rcases h with h | h
        · exact absurd h h1
        · exact absurd h h2

/-! ### Claim C7: bevy finalization on an empty bevy -/

/-- C7 counterexample: with an empty bevy but no recorded volume,
bevy finalization raises the storage-resolution error (the volume
lookup precedes the empty-bevy check), contradicting the claim that it
never errors regardless of whether a volume is recorded. -/
theorem C7_counterexample :
    ({ freshImage 4 2 .stored with has_volume := false } : AFF4Image).bevy = [] ∧
    AFF4Image.FlushBevy { freshImage 4 2 .stored with has_volume := false } =
      .error .noStorage :=
  ⟨rfl, rfl⟩

/-- C7 amended: bevy finalization on an empty bevy is a no-op provided
a volume is recorded for the stream; the storage-resolution error is
raised exactly when the stream has no recorded volume — even when the
bevy is empty — because the volume lookup comes first. -/
theorem C7_flushbevy_amended :
    (∀ st : AFF4Image, st.bevy = [] → st.has_volume = true → st.FlushBevy = .ok st) ∧
    (∀ st : AFF4Image, st.FlushBevy = .error .noStorage ↔ st.has_volume = false) := by
  constructor
  · intro st hb hv
    unfold AFF4Image.FlushBevy
    rw [hv]
    simp [hb]
  · intro st
    unfold AFF4Image.FlushBevy
    by_cases hv : st.has_volume = false
    · simp [hv]
    · have hv' : st.has_volume = true := by
        cases h : st.has_volume
        · exact absurd h hv
        · rfl
      rw [hv']
      simp only [Bool.true_eq_false, if_false]
      constructor
      · intro h
        split at h <;> cases h
      · intro h
        exact h.elim

/-- C7 witness. -/
theorem C7_witness :
    AFF4Image.FlushBevy (freshImage 4 2 .stored) = .ok (freshImage 4 2 .stored) ∧
    AFF4Image.FlushBevy { freshImage 4 2 .stored with has_volume := false } =
      .error .noStorage :=
  ⟨C7_flushbevy_amended.1 (freshImage 4 2 .stored) rfl rfl,
   (C7_flushbevy_amended.2 { freshImage 4 2 .stored with has_volume := false }).mpr rfl⟩

/-! ### Claim C10: Flush leaves the pending buffer and write cursor alone -/

/-- C10: Flush neither clears the pending buffer nor resets the write
cursor; concretely, writing "AB", flushing, writing "CD" and flushing
again persists the previously flushed pending bytes "AB" a second time
(bevy 0 holds "AB", bevy 1 holds "ABCD"). -/
theorem C10_flush_keeps_buffer :
    (∀ st st' : AFF4Image, st.Flush = .ok st' →
        st'.buffer = st.buffer ∧ st'.readptr = st.readptr) ∧
    (Except.bind (Except.bind (Except.bind
          ((freshImage 4 2 .stored).Write [65, 66]) AFF4Image.Flush)
          (fun st => st.Write [67, 68])) AFF4Image.Flush).map
        (fun st => (st.buffer, st.store)) =
      .ok ([65, 66, 67, 68],
        [(0, [0, 0, 0, 0], [65, 66]), (1, [0, 0, 0, 0], [65, 66, 67, 68])]) := by
  constructor
  · intro st st' h
    unfold AFF4Image.Flush at h
    split at h
    · split at h
      · exact absurd h (by simp)
      next st1 hfc =>
        split at h
        · exact absurd h (by simp)
        next st2 hfb =>
          cases h
          have h1 := FlushChunk_fields hfc
          have h2 := FlushBevy_fields hfb
          exact ⟨by simp only [h2.1, h1.1], by simp only [h2.2.2.2.2.2.1, h1.2.2.2.2.2.1]⟩
    · cases h; exact ⟨rfl, rfl⟩
  · rfl

/-- C10 witness. -/
theorem C10_witness :
    AFF4Image.Flush { freshImage 4 2 .stored with
        dirty := true, buffer := [65, 66], readptr := 2, size := 2 } =
      .ok { freshImage 4 2 .stored with
        buffer := [65, 66], readptr := 2, size := 2,
        bevy_number := 1, store := [(0, [0, 0, 0, 0], [65, 66])] } ∧
    ({ freshImage 4 2 .stored with
        buffer := [65, 66], readptr := 2, size := 2,
        bevy_number := 1, store := [(0, [0, 0, 0, 0], [65, 66])] } : AFF4Image).buffer =
      ({ freshImage 4 2 .stored with
        dirty := true, buffer := [65, 66], readptr := 2, size := 2 } : AFF4Image).buffer :=
  ⟨rfl,
   (C10_flush_keeps_buffer.1
      { freshImage 4 2 .stored with
          dirty := true, buffer := [65, 66], readptr := 2, size := 2 }
      { freshImage 4 2 .stored with
          buffer := [65, 66], readptr := 2, size := 2,
          bevy_number := 1, store := [(0, [0, 0, 0, 0], [65, 66])] } rfl).1⟩

/-! ### Claim C9: reads at or past end of stream -/

theorem int_lt_zero_negSucc {a : Int} (h : a < 0) : ∃ k, a = Int.negSucc k := by
  cases a with
  | ofNat n =>
    rw [Int.ofNat_eq_natCast] at h
    omega
  | negSucc k => exact ⟨k, rfl⟩

theorem readLoop_nonpos (comp : Compression) (cps : Nat)
    (store : List (Nat × List Nat × List Nat)) (fuel chunk_id : Nat) (ctr : Int)
    (acc : List Nat) (h : ctr ≤ 0) :
    readLoop comp cps store fuel chunk_id ctr acc = .ok acc := by
  cases fuel with
  | zero => unfold readLoop; rw [if_neg (by omega)]
  | succ fuel => unfold readLoop; rw [if_neg (by omega)]

theorem pySlice_nil (n : Int) : pySlice n [] = [] := by
  unfold pySlice
  split <;> simp

theorem fdiv_add_one_nonpos {len : Int} {cs : Nat} (hcs : 0 < cs) (h : len < 0) :
    Int.fdiv len (cs : Int) + 1 ≤ 0 := by
  obtain ⟨k, rfl⟩ := int_lt_zero_negSucc h
  obtain ⟨c, rfl⟩ : ∃ c, cs = c + 1 := ⟨cs - 1, by omega⟩
  have e : ((c + 1 : Nat) : Int) = Int.ofNat (c + 1) := rfl
  rw [e, fdiv_negSucc_succ, Int.negSucc_eq]
  linarith [Int.natCast_nonneg (k / (c + 1))]

theorem Read_of_len_neg (st : AFF4Image) (L : Nat) (hcs : 0 < st.chunk_size)
    (hneg : min (L : Int) ((st.size : Int) - (st.readptr : Int)) < 0) :
    st.Read L = .ok [] := by
  rw [Read_eq]
  have hle : Int.fdiv (min (L : Int) ((st.size : Int) - (st.readptr : Int)))
      (st.chunk_size : Int) + 1 ≤ 0 := fdiv_add_one_nonpos hcs hneg
  rw [readLoop_nonpos _ _ _ _ _ _ _ hle]
  dsimp only
  split <;> simp [pySlice_nil]

/-- C9 amended: with a positive chunk size, reading with the cursor
strictly past `size` returns the empty string without error (the chunk
count `length/chunk_size + 1` is non-positive for a negative clamped
length, so no chunk is visited), and any successful read with the
cursor at or past `size` returns the empty string.  Reading with the
cursor exactly at `size` can error, because the clamped length 0 still
makes the loop visit one chunk (`0/chunk_size + 1 = 1`); the
counterexample shows this when `size` is a positive multiple of the
chunk size, where that chunk does not exist. -/
theorem C9_read_past_eof_amended (st : AFF4Image) (L : Nat)
    (hcs : 0 < st.chunk_size) :
    (st.size < st.readptr → st.Read L = .ok []) ∧
    (st.size ≤ st.readptr → ∀ r, st.Read L = .ok r → r = []) := by
  constructor
  · intro hlt
    apply Read_of_len_neg st L hcs
    have h1 : (st.size : Int) - (st.readptr : Int) < 0 := by omega
    have h2 : min (L : Int) ((st.size : Int) - (st.readptr : Int)) ≤
        (st.size : Int) - (st.readptr : Int) := min_le_right _ _
    omega
  · intro hle r hr
    by_cases hneg : min (L : Int) ((st.size : Int) - (st.readptr : Int)) < 0
    · rw [Read_of_len_neg st L hcs hneg] at hr
      cases hr; rfl
    · have h0 : min (L : Int) ((st.size : Int) - (st.readptr : Int)) = 0 := by
        have h1 : (st.size : Int) - (st.readptr : Int) ≤ 0 := by omega
        have h2 : min (L : Int) ((st.size : Int) - (st.readptr : Int)) ≤
            (st.size : Int) - (st.readptr : Int) := min_le_right _ _
        omega
      rw [Read_eq, h0] at hr
      split at hr
      · exact absurd hr (by simp)
      · cases hr
        unfold pySlice
        rw [if_pos (by omega)]
        simp

/-- C9 counterexample: a freshly flushed 4-byte stream with chunk size
4 (size = 4, one stored chunk): reading 5 bytes with the cursor at
offset 4 = size raises the bevy-index-too-short error instead of
returning the empty string. -/
theorem C9_counterexample :
    (writeFlushed 4 2 .stored [65, 66, 67, 68]).bind
        (fun st => (st.Seek 4).Read 5) = .error .indexTooShort ∧
    (writeFlushed 4 2 .stored [65, 66, 67, 68]).map
        (fun st => ((st.Seek 4).readptr, st.size)) = .ok (4, 4) :=
  ⟨rfl, rfl⟩

/-- C9 witness. -/
theorem C9_witness :
    AFF4Image.Read { freshImage 4 2 .stored with size := 2, readptr := 5 } 3 = .ok [] :=
  (C9_read_past_eof_amended { freshImage 4 2 .stored with size := 2, readptr := 5 } 3
    (by decide)).1 (by decide)

/-! ### Claim C8: compressed length resolution per chunk -/

/-- C8: when the resolved chunk is the last entry of its bevy index,
the compressed bytes consumed (the amount the data segment's position
advances from the chunk's recorded start offset) equal the segment's
total size minus that offset; for an earlier chunk they equal the next
index entry minus this entry.  The hypotheses state that the index is
sorted, its offsets lie inside the data segment, and the segment
position on arrival does not exceed the chunk's offset — all true of
indexes produced by FlushChunk and of the read loop's traversal. -/
theorem C8_compressed_length (comp : Compression) (cps chunk_id : Nat)
    (blob : List Nat) (tell : Nat) (index : List Nat) (d : List Nat) (t' : Nat)
    (hj : chunk_id % cps < index.length)
    (hchain : index.Chain' (· ≤ ·))
    (hbound : ∀ x ∈ index, x ≤ blob.length)
    (htell : tell ≤ index.getD (chunk_id % cps) 0)
    (hok : readChunkFromBevy comp cps chunk_id blob tell index = .ok (d, t')) :
    t' - index.getD (chunk_id % cps) 0 =
      if chunk_id % cps = index.length - 1
      then blob.length - index.getD (chunk_id % cps) 0
      else index.getD (chunk_id % cps + 1) 0 - index.getD (chunk_id % cps) 0 := by
  rw [readChunkFromBevy_eq] at hok
  rw [if_neg (by omega), if_neg (by omega)] at hok
  have hoff : index.getD (chunk_id % cps) 0 ≤ blob.length :=
    hbound _ (by rw [List.getD_eq_getElem index 0 hj]; exact List.getElem_mem hj)
  split at hok
  · exact absurd hok (by simp)
  next d' hd =>
    cases hok
    rw [List.length_take, List.length_drop]
    split
    next hlast =>
      have : blob.length - tell ≥ blob.length - index.getD (chunk_id % cps) 0 := by omega
      omega
    next hnotlast =>
      have hj1 : chunk_id % cps + 1 < index.length := by omega
      have hmono : index.getD (chunk_id % cps) 0 ≤ index.getD (chunk_id % cps + 1) 0 := by
        rw [List.getD_eq_getElem index 0 hj, List.getD_eq_getElem index 0 hj1]
        simpa using List.chain'_iff_get.mp hchain (chunk_id % cps) (by omega)
      have hnext : index.getD (chunk_id % cps + 1) 0 ≤ blob.length :=
        hbound _ (by rw [List.getD_eq_getElem index 0 hj1]; exact List.getElem_mem hj1)
      omega

/-- C8 witness: a stored two-chunk bevy with blob [1,2,3,4,5], index
offsets [0,2]; reading chunk 0 consumes 2 = index[1] - index[0] bytes
and reading chunk 1 consumes 3 = blob size - index[1] bytes. -/
theorem C8_witness :
    readChunkFromBevy .stored 2 0 [1, 2, 3, 4, 5] 0 [0, 2] = .ok ([1, 2], 2) ∧
    (2 - List.getD [0, 2] (0 % 2) 0 =
      if 0 % 2 = List.length [0, 2] - 1
      then List.length [1, 2, 3, 4, 5] - List.getD [0, 2] (0 % 2) 0
      else List.getD [0, 2] (0 % 2 + 1) 0 - List.getD [0, 2] (0 % 2) 0) ∧
    readChunkFromBevy .stored 2 1 [1, 2, 3, 4, 5] 2 [0, 2] = .ok ([3, 4, 5], 5) ∧
    (5 - List.getD [0, 2] (1 % 2) 0 =
      if 1 % 2 = List.length [0, 2] - 1
      then List.length [1, 2, 3, 4, 5] - List.getD [0, 2] (1 % 2) 0
      else List.getD [0, 2] (1 % 2 + 1) 0 - List.getD [0, 2] (1 % 2) 0) :=
  ⟨rfl,
   C8_compressed_length .stored 2 0 [1, 2, 3, 4, 5] 0 [0, 2] [1, 2] 2
     (by decide) (by simp) (by decide) (by decide) rfl,
   rfl,
   C8_compressed_length .stored 2 1 [1, 2, 3, 4, 5] 2 [0, 2] [3, 4, 5] 5
     (by decide) (by simp) (by decide) (by decide) rfl⟩

/-! ### Chunk decomposition and bevy bookkeeping, defined once and
related to the imperative loops by the lemmas below -/

/-- Decomposition of a list into consecutive groups of `k` elements,
the last group possibly shorter (but never empty). -/
def groupsOf {α : Type} (k : Nat) (l : List α) : List (List α) :=
  if h : l.length = 0 ∨ k = 0 then []
  else l.take k :: groupsOf k (l.drop k)
termination_by l.length
decreasing_by
  simp only [List.length_drop]
  push_neg at h
  omega

/-- The chunks cut by Write's loop (all of length exactly `k`) paired
with the remaining pending buffer (length in `[1, k]` for a nonempty
input, `[0, k]` in general). -/
def splitWrite {α : Type} (k : Nat) (l : List α) : List (List α) × List α :=
  if h : l.length ≤ k ∨ k = 0 then ([], l)
  else
    let p := splitWrite k (l.drop k)
    (l.take k :: p.1, p.2)
termination_by l.length
decreasing_by
  simp only [List.length_drop]
  push_neg at h
  omega

/-- Start offsets of the compressed chunks of one bevy, as recorded by
successive FlushChunk calls (partial sums of compressed lengths). -/
def offsetsOf (comp : Compression) : List (List Nat) → List Nat
  | [] => []
  | c :: rest => 0 :: (offsetsOf comp rest).map (fun x => x + (comp.compress c).length)

/-- Data-segment contents of one bevy: concatenated compressed chunks. -/
def blobOf (comp : Compression) (g : List (List Nat)) : List Nat :=
  (g.map comp.compress).flatten

/-- Index-segment contents of one bevy: packed 32-bit start offsets. -/
def indexBytesOf (comp : Compression) (g : List (List Nat)) : List Nat :=
  ((offsetsOf comp g).map pack32).flatten

/-- The persisted store for a list of bevy chunk groups starting at a
given bevy ordinal. -/
def mkStore (comp : Compression) : Nat → List (List (List Nat)) → List (Nat × List Nat × List Nat)
  | _, [] => []
  | b, g :: gs => (b, indexBytesOf comp g, blobOf comp g) :: mkStore comp (b + 1) gs

/-- Folding FlushChunk over a list of chunks (the successive calls made
by Write's loop and by Flush). -/
def foldFlushChunk : List (List Nat) → AFF4Image → Except Err AFF4Image
  | [], st => .ok st
  | c :: rest, st =>
    match st.FlushChunk c with
    | .error e => .error e
    | .ok st' => foldFlushChunk rest st'

theorem blobOf_nil (comp : Compression) : blobOf comp [] = [] := rfl

theorem blobOf_cons (comp : Compression) (c : List Nat) (g : List (List Nat)) :
    blobOf comp (c :: g) = comp.compress c ++ blobOf comp g := by
  simp [blobOf]

theorem blobOf_append (comp : Compression) (a b : List (List Nat)) :
    blobOf comp (a ++ b) = blobOf comp a ++ blobOf comp b := by
  simp [blobOf]

theorem offsetsOf_snoc (comp : Compression) (g : List (List Nat)) (c : List Nat) :
    offsetsOf comp (g ++ [c]) = offsetsOf comp g ++ [(blobOf comp g).length] := by
  induction g with
  | nil => simp [offsetsOf, blobOf]
  | cons a g ih =>
    show 0 :: (offsetsOf comp (g ++ [c])).map (fun x => x + (comp.compress a).length) =
      (0 :: (offsetsOf comp g).map (fun x => x + (comp.compress a).length)) ++
        [(blobOf comp (a :: g)).length]
    rw [ih]
    simp [blobOf_cons, Nat.add_comm]

theorem blobOf_snoc (comp : Compression) (g : List (List Nat)) (c : List Nat) :
    blobOf comp (g ++ [c]) = blobOf comp g ++ comp.compress c := by
  simp [blobOf]

theorem indexBytesOf_nil (comp : Compression) : indexBytesOf comp [] = [] := rfl

theorem indexBytesOf_snoc (comp : Compression) (g : List (List Nat)) (c : List Nat) :
    indexBytesOf comp (g ++ [c]) =
      indexBytesOf comp g ++ pack32 (blobOf comp g).length := by
  simp [indexBytesOf, offsetsOf_snoc]

theorem offsetsOf_length (comp : Compression) (g : List (List Nat)) :
    (offsetsOf comp g).length = g.length := by
  induction g with
  | nil => rfl
  | cons a g ih => simp [offsetsOf, ih]

theorem offsetsOf_le_blob (comp : Compression) (g : List (List Nat)) :
    ∀ x ∈ offsetsOf comp g, x ≤ (blobOf comp g).length := by
  induction g with
  | nil => simp [offsetsOf]
  | cons a g ih =>
    intro x hx
    simp only [offsetsOf, List.mem_cons, List.mem_map] at hx
    rcases hx with rfl | ⟨y, hy, rfl⟩
    · exact Nat.zero_le _
    · have := ih y hy
      simp only [blobOf_cons, List.length_append]
      omega

theorem offsetsOf_chain (comp : Compression) (g : List (List Nat)) :
    (offsetsOf comp g).Chain' (fun a b => a ≤ b) := by
  induction g with
  | nil => simp [offsetsOf]
  | cons a g ih =>
    simp only [offsetsOf]
    rw [List.chain'_cons']
    constructor
    · intro y hy
      cases hg : offsetsOf comp g with
      | nil => rw [hg] at hy; simp at hy
      | cons o os =>
        rw [hg] at hy
        simp only [List.map_cons, List.head?_cons, Option.mem_def, Option.some.injEq] at hy
        omega
    · rw [List.chain'_map]
      exact ih.imp (fun h => by omega)

theorem compress_length_le (comp : Compression) (c : List Nat) :
    (comp.compress c).length ≤ c.length + 2 := by
  cases comp <;> simp [Compression.compress, zlibCompress, snappyCompress]

theorem compress_ne_nil (comp : Compression) (c : List Nat) (h : c ≠ []) :
    comp.compress c ≠ [] := by
  cases comp <;> simp [Compression.compress, zlibCompress, snappyCompress]
  exact h

theorem blobOf_length_le (comp : Compression) (g : List (List Nat)) (cs : Nat)
    (h : ∀ c ∈ g, c.length ≤ cs) : (blobOf comp g).length ≤ g.length * (cs + 2) := by
  induction g with
  | nil => simp [blobOf]
  | cons a g ih =>
    have h1 := compress_length_le comp a
    have h2 := h a (by simp)
    have h3 := ih (fun c hc => h c (by simp [hc]))
    simp only [blobOf_cons, List.length_append, List.length_cons]
    calc (comp.compress a).length + (blobOf comp g).length
        ≤ (cs + 2) + g.length * (cs + 2) := by omega
      _ = (g.length + 1) * (cs + 2) := by ring

theorem unpackWords_join_pack32 : ∀ (os : List Nat), (∀ x ∈ os, x < 4294967296) →
    unpackWords ((os.map pack32).flatten) = some os := by
  intro os
  induction os with
  | nil => intro h; rfl
  | cons o os ih =>
    intro h
    simp only [List.map_cons, List.flatten_cons]
    rw [unpack32_pack32 o (h o (by simp)) _, ih (fun x hx => h x (by simp [hx]))]
    rfl

theorem unpackWords_indexBytesOf (comp : Compression) (g : List (List Nat))
    (h : (blobOf comp g).length < 4294967296) :
    unpackWords (indexBytesOf comp g) = some (offsetsOf comp g) := by
  apply unpackWords_join_pack32
  intro x hx
  have := offsetsOf_le_blob comp g x hx
  omega

theorem groupsOf_nil {α : Type} (k : Nat) : groupsOf k ([] : List α) = [] := by
  rw [groupsOf]; simp

theorem groupsOf_flatten {α : Type} (k : Nat) (hk : 0 < k) (l : List α) :
    (groupsOf k l).flatten = l := by
  rw [groupsOf]
  split
  next h =>
    rcases h with h | h
    · simp [List.length_eq_zero.mp h]
    · omega
  next h =>
    push_neg at h
    simp only [List.flatten_cons]
    rw [groupsOf_flatten k hk (l.drop k)]
    exact List.take_append_drop k l
termination_by l.length
decreasing_by
  simp only [List.length_drop]
  push_neg at *
  omega

theorem groupsOf_length {α : Type} (k : Nat) (hk : 0 < k) (l : List α) (hl : l ≠ []) :
    (groupsOf k l).length = (l.length - 1) / k + 1 := by
  rw [groupsOf]
  split
  next h =>
    rcases h with h | h
    · exact absurd (List.length_eq_zero.mp h) hl
    · omega
  next h =>
    push_neg at h
    by_cases hle : l.length ≤ k
    · have hd : l.drop k = [] := by
        rw [List.drop_eq_nil_iff]
        omega
      rw [hd, groupsOf_nil]
      have h0 : 0 < l.length := by
        cases l
        · exact absurd rfl hl
        · simp
      simp only [List.length_cons, List.length_nil]
      rw [Nat.div_eq_of_lt (by omega)]
    · have hd : l.drop k ≠ [] := by
        rw [Ne, List.drop_eq_nil_iff]
        omega
      rw [List.length_cons, groupsOf_length k hk (l.drop k) hd]
      simp only [List.length_drop]
      have e : l.length - 1 = (l.length - k - 1) + k := by omega
      rw [e, Nat.add_div_right _ hk]
termination_by l.length
decreasing_by
  simp only [List.length_drop]
  push_neg at *
  omega

theorem groupsOf_getD {α : Type} (k : Nat) (hk : 0 < k) (l : List α) (i : Nat)
    (hi : i * k < l.length) :
    (groupsOf k l).getD i [] = (l.drop (i * k)).take k := by
  rw [groupsOf]
  split
  next h =>
    rcases h with h | h
    · omega
    · omega
  next h =>
    push_neg at h
    cases i with
    | zero => simp
    | succ i =>
      have hi' : i * k < (l.drop k).length := by
        simp only [List.length_drop]
        have : (i + 1) * k = i * k + k := by ring
        omega
      show (groupsOf k (l.drop k)).getD i [] = _
      rw [groupsOf_getD k hk (l.drop k) i hi']
      rw [List.drop_drop]
      congr 2
      ring
termination_by l.length
decreasing_by
  simp only [List.length_drop]
  push_neg at *
  omega

theorem groupsOf_mem {α : Type} (k : Nat) (l : List α) :
    ∀ g ∈ groupsOf k l, g.length ≤ k ∧ g ≠ [] := by
  intro g hg
  rw [groupsOf] at hg
  split at hg
  · simp at hg
  next h =>
    push_neg at h
    rcases List.mem_cons.mp hg with rfl | hgrec
    · constructor
      · simp [List.length_take]
      · rw [Ne, List.take_eq_nil_iff]
        push_neg
        constructor
        · omega
        · intro hnil
          rw [hnil] at h
          simp at h
    · exact groupsOf_mem k (l.drop k) g hgrec
termination_by l.length
decreasing_by
  simp only [List.length_drop]
  push_neg at *
  omega

theorem groupsOf_eq_splitWrite {α : Type} (k : Nat) (hk : 0 < k) (l : List α)
    (hl : l ≠ []) :
    groupsOf k l = (splitWrite k l).1 ++ [(splitWrite k l).2] := by
  rw [groupsOf, splitWrite]
  split
  next h =>
    rcases h with h | h
    · exact absurd (List.length_eq_zero.mp h) hl
    · omega
  next h =>
    push_neg at h
    split
    next hle =>
      rcases hle with hle | hk0
      · have hd : l.drop k = [] := by
          rw [List.drop_eq_nil_iff]
          omega
        rw [hd, groupsOf_nil, List.take_of_length_le hle]
        rfl
      · omega
    next hgt =>
      push_neg at hgt
      have hd : l.drop k ≠ [] := by
        rw [Ne, List.drop_eq_nil_iff]
        omega
      rw [groupsOf_eq_splitWrite k hk (l.drop k) hd]
      rfl
termination_by l.length
decreasing_by
  simp only [List.length_drop]
  push_neg at *
  omega

theorem splitWrite_full_chunks {α : Type} (k : Nat) (l : List α) :
    ∀ c ∈ (splitWrite k l).1, c.length = k := by
  intro c hc
  rw [splitWrite] at hc
  split at hc
  · simp at hc
  next h =>
    push_neg at h
    rcases List.mem_cons.mp hc with rfl | hrec
    · simp only [List.length_take]
      omega
    · exact splitWrite_full_chunks k (l.drop k) c hrec
termination_by l.length
decreasing_by
  simp only [List.length_drop]
  push_neg at *
  omega

theorem splitWrite_rest_le {α : Type} (k : Nat) (l : List α) :
    (splitWrite k l).2.length ≤ k ∨ k = 0 := by
  rw [splitWrite]
  split
  next h =>
    rcases h with h | h
    · exact Or.inl h
    · exact Or.inr h
  next h =>
    push_neg at h
    exact splitWrite_rest_le k (l.drop k)
termination_by l.length
decreasing_by
  simp only [List.length_drop]
  push_neg at *
  omega

theorem splitWrite_rest_ne_nil {α : Type} (k : Nat) (l : List α) (hl : l ≠ []) :
    (splitWrite k l).2 ≠ [] := by
  rw [splitWrite]
  split
  next h => exact hl
  next h =>
    push_neg at h
    apply splitWrite_rest_ne_nil k (l.drop k)
    rw [Ne, List.drop_eq_nil_iff]
    omega
termination_by l.length
decreasing_by
  simp only [List.length_drop]
  push_neg at *
  omega

/-! ### FlushChunk and FlushBevy ignore the buffer, cursors and dirty
flag: updates to those fields commute with them -/

theorem FlushBevy_set_buffer (st : AFF4Image) (X : List Nat) :
    AFF4Image.FlushBevy { st with buffer := X } =
      (st.FlushBevy).map (fun s => { s with buffer := X }) := by
  unfold AFF4Image.FlushBevy
  dsimp only
  by_cases hv : st.has_volume = false
  · simp [hv, Except.map]
  · by_cases hb : st.bevy = []
    · simp [hv, hb, Except.map]
    · simp [hv, hb, Except.map]

theorem FlushChunk_set_buffer (st : AFF4Image) (c X : List Nat) :
    AFF4Image.FlushChunk { st with buffer := X } c =
      (st.FlushChunk c).map (fun s => { s with buffer := X }) := by
  rw [FlushChunk_eq, FlushChunk_eq]
  dsimp only
  by_cases hlen : st.bevy.length < 4294967296
  · rw [if_pos hlen, if_pos hlen]
    by_cases hcnt : st.chunk_count_in_bevy + 1 ≥ st.chunks_per_segment
    · rw [if_pos hcnt, if_pos hcnt]
      exact FlushBevy_set_buffer
        { st with
          bevy_index := st.bevy_index ++ pack32 st.bevy.length,
          bevy := st.bevy ++ st.compression.compress c,
          chunk_count_in_bevy := st.chunk_count_in_bevy + 1 } X
    · rw [if_neg hcnt, if_neg hcnt]
      rfl
  · rw [if_neg hlen, if_neg hlen]
    rfl

theorem FlushBevy_set_rp_size (st : AFF4Image) (r sz : Nat) :
    AFF4Image.FlushBevy { st with readptr := r, size := sz } =
      (st.FlushBevy).map (fun s => { s with readptr := r, size := sz }) := by
  unfold AFF4Image.FlushBevy
  dsimp only
  by_cases hv : st.has_volume = false
  · simp [hv, Except.map]
  · by_cases hb : st.bevy = []
    · simp [hv, hb, Except.map]
    · simp [hv, hb, Except.map]

theorem FlushChunk_set_rp_size (st : AFF4Image) (c : List Nat) (r sz : Nat) :
    AFF4Image.FlushChunk { st with readptr := r, size := sz } c =
      (st.FlushChunk c).map (fun s => { s with readptr := r, size := sz }) := by
  rw [FlushChunk_eq, FlushChunk_eq]
  dsimp only
  by_cases hlen : st.bevy.length < 4294967296
  · rw [if_pos hlen, if_pos hlen]
    by_cases hcnt : st.chunk_count_in_bevy + 1 ≥ st.chunks_per_segment
    · rw [if_pos hcnt, if_pos hcnt]
      exact FlushBevy_set_rp_size
        { st with
          bevy_index := st.bevy_index ++ pack32 st.bevy.length,
          bevy := st.bevy ++ st.compression.compress c,
          chunk_count_in_bevy := st.chunk_count_in_bevy + 1 } r sz
    · rw [if_neg hcnt, if_neg hcnt]
      rfl
  · rw [if_neg hlen, if_neg hlen]
    rfl

/-! ### The write loop as a fold of FlushChunk over the cut chunks -/

theorem foldFlushChunk_nil (st : AFF4Image) : foldFlushChunk [] st = .ok st := rfl

theorem foldFlushChunk_cons (c : List Nat) (rest : List (List Nat)) (st : AFF4Image) :
    foldFlushChunk (c :: rest) st =
      match st.FlushChunk c with
      | .error e => .error e
      | .ok st' => foldFlushChunk rest st' := rfl

theorem foldFlushChunk_append (a b : List (List Nat)) (st : AFF4Image) :
    foldFlushChunk (a ++ b) st =
      match foldFlushChunk a st with
      | .error e => .error e
      | .ok st' => foldFlushChunk b st' := by
  induction a generalizing st with
  | nil => rfl
  | cons c a ih =>
    rw [List.cons_append, foldFlushChunk_cons, foldFlushChunk_cons]
    cases st.FlushChunk c with
    | error e => rfl
    | ok st' => exact ih st'

theorem set_buffer_self (st : AFF4Image) : { st with buffer := st.buffer } = st := rfl

theorem writeLoop_eq_fold : ∀ (fuel : Nat) (st : AFF4Image),
    st.buffer.length ≤ fuel → 0 < st.chunk_size →
    AFF4Image.writeLoop fuel st =
      foldFlushChunk (splitWrite st.chunk_size st.buffer).1
        { st with buffer := (splitWrite st.chunk_size st.buffer).2 } := by
  intro fuel
  induction fuel with
  | zero =>
    intro st hle hcs
    have hb : st.buffer = [] := List.eq_nil_of_length_eq_zero (by omega)
    unfold AFF4Image.writeLoop
    rw [if_neg (by omega)]
    rw [hb, splitWrite]
    rw [dif_pos (by simp)]
    rw [foldFlushChunk_nil, ← hb, set_buffer_self]
  | succ fuel ih =>
    intro st hle hcs
    rw [writeLoop_succ]
    by_cases hgt : st.buffer.length > st.chunk_size
    · rw [if_pos hgt]
      conv_rhs => rw [splitWrite]
      rw [dif_neg (by omega)]
      dsimp only
      rw [foldFlushChunk_cons]
      conv_lhs => rw [FlushChunk_set_buffer]
      conv_rhs => rw [FlushChunk_set_buffer]
      cases hfc : st.FlushChunk (st.buffer.take st.chunk_size) with
      | error e => rfl
      | ok s =>
        dsimp only [Except.map]
        have hfields := FlushChunk_fields hfc
        have hbuf : ({ s with buffer := st.buffer.drop st.chunk_size } : AFF4Image).buffer.length ≤ fuel := by
          simp only [List.length_drop]
          omega
        have hcs' : 0 < ({ s with buffer := st.buffer.drop st.chunk_size } : AFF4Image).chunk_size := by
          have := hfields.2.1
          simp only
          omega
        rw [ih { s with buffer := st.buffer.drop st.chunk_size } hbuf hcs']
        simp only
        rw [hfields.2.1]
    · rw [if_neg hgt]
      conv_rhs => rw [splitWrite]
      rw [dif_pos (by omega)]
      rw [foldFlushChunk_nil, set_buffer_self]

theorem Write_eq_fold (st : AFF4Image) (data : List Nat) (hcs : 0 < st.chunk_size) :
    st.Write data =
      (foldFlushChunk (splitWrite st.chunk_size (st.buffer ++ data)).1
          { st with dirty := true, buffer := (splitWrite st.chunk_size (st.buffer ++ data)).2 }).map
        (fun st2 => { st2 with
          readptr := st2.readptr + data.length,
          size := if st2.readptr + data.length > st2.size then st2.readptr + data.length
                  else st2.size }) := by
  rw [Write_eq]
  rw [writeLoop_eq_fold (st.buffer ++ data).length
    { st with dirty := true, buffer := st.buffer ++ data } (le_refl _) hcs]
  dsimp only
  cases hfold : foldFlushChunk (splitWrite st.chunk_size (st.buffer ++ data)).1
      { st with dirty := true, buffer := (splitWrite st.chunk_size (st.buffer ++ data)).2 } with
  | error e => rfl
  | ok st2 => rfl

/-! ### Folding FlushChunk over the chunks of one bevy -/

/-- Session state in the middle of filling one bevy: the chunks `g`
have been flushed into the current (not yet persisted) bevy of `st0`. -/
def midState (st0 : AFF4Image) (g : List (List Nat)) : AFF4Image :=
  { st0 with
    bevy := blobOf st0.compression g,
    bevy_index := indexBytesOf st0.compression g,
    chunk_count_in_bevy := g.length }

theorem midState_nil (st0 : AFF4Image) (hb : st0.bevy = []) (hi : st0.bevy_index = [])
    (hc : st0.chunk_count_in_bevy = 0) : midState st0 [] = st0 := by
  unfold midState
  cases st0
  simp only at hb hi hc
  subst hb
  subst hi
  subst hc
  rfl

theorem FlushChunk_midState_stay (st0 : AFF4Image) (g : List (List Nat)) (c : List Nat)
    (hlen : (blobOf st0.compression g).length < 4294967296)
    (hcnt : g.length + 1 < st0.chunks_per_segment) :
    (midState st0 g).FlushChunk c = .ok (midState st0 (g ++ [c])) := by
  rw [FlushChunk_eq]
  dsimp only [midState]
  rw [if_pos hlen, if_neg (by omega)]
  rw [← blobOf_snoc, ← indexBytesOf_snoc st0.compression g c]
  simp [midState]

theorem FlushChunk_midState_roll (st0 : AFF4Image) (g : List (List Nat)) (c : List Nat)
    (hlen : (blobOf st0.compression g).length < 4294967296)
    (hcnt : g.length + 1 ≥ st0.chunks_per_segment)
    (hvol : st0.has_volume = true)
    (hne : blobOf st0.compression (g ++ [c]) ≠ []) :
    (midState st0 g).FlushChunk c =
      .ok { st0 with
        chunk_count_in_bevy := 0, bevy := [], bevy_index := [],
        bevy_number := st0.bevy_number + 1,
        store := st0.store ++ [(st0.bevy_number,
          indexBytesOf st0.compression (g ++ [c]),
          blobOf st0.compression (g ++ [c]))] } := by
  rw [FlushChunk_eq]
  dsimp only [midState]
  rw [if_pos hlen, if_pos (by omega)]
  rw [← blobOf_snoc, ← indexBytesOf_snoc st0.compression g c]
  unfold AFF4Image.FlushBevy
  dsimp only
  rw [if_neg (by simp [hvol]), if_neg hne]

theorem blobOf_prefix_le (comp : Compression) (a b : List (List Nat)) :
    (blobOf comp a).length ≤ (blobOf comp (a ++ b)).length := by
  rw [blobOf_append]
  simp

theorem foldFlushChunk_oneGroup (st0 : AFF4Image) :
    ∀ (rest pre : List (List Nat)),
    st0.has_volume = true →
    pre.length < st0.chunks_per_segment →
    pre.length + rest.length ≤ st0.chunks_per_segment →
    (blobOf st0.compression (pre ++ rest)).length < 4294967296 →
    (∀ c ∈ rest, c ≠ []) →
    foldFlushChunk rest (midState st0 pre) =
      .ok (if pre.length + rest.length < st0.chunks_per_segment
        then midState st0 (pre ++ rest)
        else { st0 with
          chunk_count_in_bevy := 0, bevy := [], bevy_index := [],
          bevy_number := st0.bevy_number + 1,
          store := st0.store ++ [(st0.bevy_number,
            indexBytesOf st0.compression (pre ++ rest),
            blobOf st0.compression (pre ++ rest))] }) := by
  intro rest
  induction rest with
  | nil =>
    intro pre hvol hpre hsum hbig hc
    rw [foldFlushChunk_nil, List.append_nil, if_pos (by simpa using hpre)]
  | cons c rest ih =>
    intro pre hvol hpre hsum hbig hc
    have hlenpre : (blobOf st0.compression pre).length < 4294967296 := by
      have := blobOf_prefix_le st0.compression pre (c :: rest)
      omega
    rw [foldFlushChunk_cons]
    by_cases hroll : pre.length + 1 ≥ st0.chunks_per_segment
    · have hrest : rest = [] := by
        have : rest.length = 0 := by
          simp only [List.length_cons] at hsum
          omega
        exact List.eq_nil_of_length_eq_zero this
      subst hrest
      have hne : blobOf st0.compression (pre ++ [c]) ≠ [] := by
        rw [blobOf_snoc, Ne, List.append_eq_nil]
        intro hand
        exact compress_ne_nil st0.compression c (hc c (by simp)) hand.2
      rw [FlushChunk_midState_roll st0 pre c hlenpre hroll hvol hne]
      dsimp only
      rw [foldFlushChunk_nil, if_neg (by simp only [List.length_cons]; omega)]
    · rw [FlushChunk_midState_stay st0 pre c hlenpre (by omega)]
      dsimp only
      have e1 : (pre ++ [c]) ++ rest = pre ++ c :: rest := by simp
      rw [ih (pre ++ [c]) hvol
        (by simp only [List.length_append, List.length_cons, List.length_nil]; omega)
        (by simp only [List.length_append, List.length_cons, List.length_nil]
            simp only [List.length_cons] at hsum
            omega)
        (by rw [e1]; exact hbig)
        (fun c' hc' => hc c' (by simp [hc']))]
      rw [e1]
      have e2 : (pre ++ [c]).length + rest.length = pre.length + (c :: rest).length := by
        simp only [List.length_append, List.length_cons, List.length_nil]
        omega
      rw [e2]

theorem blobOf_ne_nil (comp : Compression) (L : List (List Nat)) (hL : L ≠ [])
    (hc : ∀ c ∈ L, c ≠ []) : blobOf comp L ≠ [] := by
  cases L with
  | nil => exact absurd rfl hL
  | cons c L' =>
    rw [blobOf_cons, Ne, List.append_eq_nil]
    intro hand
    exact compress_ne_nil comp c (hc c (by simp)) hand.1

theorem groupsOf_cons {α : Type} (k : Nat) (hk : 0 < k) (l : List α) (hl : l ≠ []) :
    groupsOf k l = l.take k :: groupsOf k (l.drop k) := by
  rw [groupsOf, dif_neg]
  push_neg
  exact ⟨fun h => hl (List.length_eq_zero.mp h), by omega⟩

theorem fold_then_FlushBevy (st0 : AFF4Image) (L : List (List Nat))
    (hb : st0.bevy = []) (hi : st0.bevy_index = []) (hcnt : st0.chunk_count_in_bevy = 0)
    (hvol : st0.has_volume = true) (hcps : 0 < st0.chunks_per_segment)
    (hbig : ∀ g ∈ groupsOf st0.chunks_per_segment L,
      (blobOf st0.compression g).length < 4294967296)
    (hc : ∀ c ∈ L, c ≠ []) :
    (match foldFlushChunk L st0 with
     | .error e => Except.error e
     | .ok s => s.FlushBevy) =
      .ok { st0 with
        store := st0.store ++
          mkStore st0.compression st0.bevy_number (groupsOf st0.chunks_per_segment L),
        bevy_number := st0.bevy_number +
          (groupsOf st0.chunks_per_segment L).length } := by
  obtain ⟨cs, cps, comp, sz, rp, buf, bevy0, bidx0, cnt0, bn, dirty0, vol0, store0⟩ := st0
  simp only at hb hi hcnt hvol hcps hbig hc
  subst hb
  subst hi
  subst hcnt
  subst hvol
  by_cases hnil : L = []
  · subst hnil
    rw [groupsOf_nil]
    dsimp only [foldFlushChunk, mkStore]
    unfold AFF4Image.FlushBevy
    rw [if_neg (by simp), if_pos rfl]
    simp
  · by_cases hle : L.length ≤ cps
    · have hgrp : groupsOf cps L = [L] := by
        rw [groupsOf_cons cps hcps L hnil]
        rw [List.take_of_length_le hle]
        rw [List.drop_eq_nil_iff.mpr hle, groupsOf_nil]
      have hbigL : (blobOf comp ([] ++ L)).length < 4294967296 := by
        rw [List.nil_append]
        exact hbig L (by rw [hgrp]; simp)
      have h1 := foldFlushChunk_oneGroup
        ⟨cs, cps, comp, sz, rp, buf, [], [], 0, bn, dirty0, true, store0⟩
        L [] rfl hcps (by simpa using hle) hbigL hc
      rw [show midState ⟨cs, cps, comp, sz, rp, buf, [], [], 0, bn, dirty0, true, store0⟩ [] =
        (⟨cs, cps, comp, sz, rp, buf, [], [], 0, bn, dirty0, true, store0⟩ : AFF4Image)
        from rfl] at h1
      simp only [List.length_nil, Nat.zero_add, List.nil_append] at h1
      rw [h1]
      by_cases hlt : L.length < cps
      · rw [if_pos hlt]
        dsimp only
        unfold AFF4Image.FlushBevy
        rw [if_neg (by simp [midState])]
        rw [if_neg (by simpa [midState] using blobOf_ne_nil comp L hnil hc)]
        rw [hgrp]
        dsimp only [mkStore, midState]
        rfl
      · rw [if_neg hlt]
        dsimp only
        unfold AFF4Image.FlushBevy
        rw [if_neg (by simp), if_pos rfl]
        rw [hgrp]
        dsimp only [mkStore]
        rfl
    · push_neg at hle
      have happ := foldFlushChunk_append (L.take cps) (L.drop cps)
        ⟨cs, cps, comp, sz, rp, buf, [], [], 0, bn, dirty0, true, store0⟩
      rw [List.take_append_drop] at happ
      rw [happ]
      have htk : (L.take cps).length = cps := by
        rw [List.length_take]
        omega
      have hbig1 : (blobOf comp ([] ++ L.take cps)).length < 4294967296 := by
        rw [List.nil_append]
        apply hbig
        rw [groupsOf_cons cps hcps L hnil]
        simp
      have h1 := foldFlushChunk_oneGroup
        ⟨cs, cps, comp, sz, rp, buf, [], [], 0, bn, dirty0, true, store0⟩
        (L.take cps) [] rfl hcps (by simp [htk]) hbig1
        (fun c hcm => hc c (List.mem_of_mem_take hcm))
      rw [show midState ⟨cs, cps, comp, sz, rp, buf, [], [], 0, bn, dirty0, true, store0⟩ [] =
        (⟨cs, cps, comp, sz, rp, buf, [], [], 0, bn, dirty0, true, store0⟩ : AFF4Image)
        from rfl] at h1
      simp only [List.length_nil, Nat.zero_add, List.nil_append, htk] at h1
      rw [if_neg (by omega)] at h1
      rw [h1]
      dsimp only
      have hrec := fold_then_FlushBevy
        ⟨cs, cps, comp, sz, rp, buf, [], [], 0, bn + 1, dirty0, true,
          store0 ++ [(bn, indexBytesOf comp (L.take cps), blobOf comp (L.take cps))]⟩
        (L.drop cps) rfl rfl rfl rfl hcps
        (by
          intro g hg
          apply hbig
          rw [groupsOf_cons cps hcps L hnil]
          exact List.mem_cons_of_mem _ hg)
        (fun c hcm => hc c (List.mem_of_mem_drop hcm))
      rw [hrec]
      rw [groupsOf_cons cps hcps L hnil]
      dsimp only [mkStore]
      simp only [List.length_cons, List.append_assoc, List.singleton_append]
      rw [show bn + 1 + (groupsOf cps (L.drop cps)).length =
        bn + ((groupsOf cps (L.drop cps)).length + 1) from by omega]
termination_by L.length
decreasing_by
  simp only [List.length_drop]
  have h1 : 0 < cps := hcps
  have h2 : ¬L.length ≤ cps := hle
  omega

theorem foldFlushChunk_fields : ∀ {L : List (List Nat)} {st st' : AFF4Image},
    foldFlushChunk L st = .ok st' →
    st'.buffer = st.buffer ∧ st'.chunk_size = st.chunk_size ∧
    st'.chunks_per_segment = st.chunks_per_segment ∧ st'.compression = st.compression ∧
    st'.size = st.size ∧ st'.readptr = st.readptr ∧ st'.dirty = st.dirty ∧
    st'.has_volume = st.has_volume := by
  intro L
  induction L with
  | nil =>
    intro st st' h
    cases h
    exact ⟨rfl, rfl, rfl, rfl, rfl, rfl, rfl, rfl⟩
  | cons c L ih =>
    intro st st' h
    rw [foldFlushChunk_cons] at h
    cases hfc : st.FlushChunk c with
    | error e => rw [hfc] at h; exact absurd h (by simp)
    | ok s =>
      rw [hfc] at h
      have h1 := FlushChunk_fields hfc
      have h2 := ih h
      refine ⟨?_, ?_, ?_, ?_, ?_, ?_, ?_, ?_⟩ <;> simp only [h2, h1]

theorem groupsOf_mem_mem {α : Type} (k : Nat) (l : List α) :
    ∀ g ∈ groupsOf k l, ∀ x ∈ g, x ∈ l := by
  intro g hg x hx
  rw [groupsOf] at hg
  split at hg
  · simp at hg
  next h =>
    push_neg at h
    rcases List.mem_cons.mp hg with rfl | hgrec
    · exact List.mem_of_mem_take hx
    · exact List.mem_of_mem_drop (groupsOf_mem_mem k (l.drop k) g hgrec x hx)
termination_by l.length
decreasing_by
  simp only [List.length_drop]
  push_neg at *
  omega

theorem bevy_blob_bound (comp : Compression) (cs cps : Nat) (B : List Nat)
    (hbound : cps * (cs + 2) < 4294967296) :
    ∀ g ∈ groupsOf cps (groupsOf cs B), (blobOf comp g).length < 4294967296 := by
  intro g hg
  have hmem := groupsOf_mem cps (groupsOf cs B) g hg
  have hchunks : ∀ c ∈ g, c.length ≤ cs := by
    intro c hcg
    exact (groupsOf_mem cs B c (groupsOf_mem_mem cps (groupsOf cs B) g hg c hcg)).1
  have h1 := blobOf_length_le comp g cs hchunks
  have h2 : g.length * (cs + 2) ≤ cps * (cs + 2) :=
    Nat.mul_le_mul_right _ hmem.1
  omega

theorem writeFlushed_spec (cs cps : Nat) (comp : Compression) (B : List Nat)
    (hcs : 0 < cs) (hcps : 0 < cps) (hB : B ≠ [])
    (hbig : ∀ g ∈ groupsOf cps (groupsOf cs B), (blobOf comp g).length < 4294967296) :
    writeFlushed cs cps comp B =
      .ok ⟨cs, cps, comp, B.length, B.length, (splitWrite cs B).2, [], [], 0,
        (groupsOf cps (groupsOf cs B)).length, false, true,
        mkStore comp 0 (groupsOf cps (groupsOf cs B))⟩ := by
  have hchunks_ne : ∀ c ∈ groupsOf cs B, c ≠ [] :=
    fun c hcm => (groupsOf_mem cs B c hcm).2
  have hsplit := groupsOf_eq_splitWrite cs hcs B hB
  have hmain := fold_then_FlushBevy
    ⟨cs, cps, comp, 0, 0, (splitWrite cs B).2, [], [], 0, 0, true, true, []⟩
    (groupsOf cs B) rfl rfl rfl rfl hcps hbig hchunks_ne
  cases hfold : foldFlushChunk (groupsOf cs B)
      ⟨cs, cps, comp, 0, 0, (splitWrite cs B).2, [], [], 0, 0, true, true, []⟩ with
  | error e =>
    rw [hfold] at hmain
    exact absurd hmain (by simp)
  | ok sA =>
    rw [hfold] at hmain
    dsimp only at hmain
    have happ := foldFlushChunk_append (splitWrite cs B).1 [(splitWrite cs B).2]
      ⟨cs, cps, comp, 0, 0, (splitWrite cs B).2, [], [], 0, 0, true, true, []⟩
    rw [← hsplit, hfold] at happ
    cases hy : foldFlushChunk (splitWrite cs B).1
        ⟨cs, cps, comp, 0, 0, (splitWrite cs B).2, [], [], 0, 0, true, true, []⟩ with
    | error e =>
      rw [hy] at happ
      exact absurd happ (by simp)
    | ok y =>
      rw [hy] at happ
      dsimp only [foldFlushChunk] at happ
      cases hyc : y.FlushChunk (splitWrite cs B).2 with
      | error e =>
        rw [hyc] at happ
        exact absurd happ (by simp)
      | ok z =>
        rw [hyc] at happ
        have hz : z = sA := by
          injection happ with h
          exact h.symm
        subst hz
        have hyf := foldFlushChunk_fields hy
        have hyb : y.buffer = (splitWrite cs B).2 := hyf.1
        have hyd : y.dirty = true := hyf.2.2.2.2.2.2.1
        have hyr : y.readptr = 0 := hyf.2.2.2.2.2.1
        have hys : y.size = 0 := hyf.2.2.2.2.1
        unfold writeFlushed
        rw [Write_eq_fold (freshImage cs cps comp) B hcs]
        show (match ((foldFlushChunk (splitWrite cs ([] ++ B)).1
            ⟨cs, cps, comp, 0, 0, (splitWrite cs ([] ++ B)).2, [], [], 0, 0, true, true,
              []⟩).map
            (fun st2 => { st2 with
              readptr := st2.readptr + B.length,
              size := if st2.readptr + B.length > st2.size then st2.readptr + B.length
                      else st2.size })) with
          | Except.error e => Except.error e
          | Except.ok st => st.Flush) = _
        rw [List.nil_append]
        rw [hy]
        dsimp only [Except.map]
        unfold AFF4Image.Flush
        rw [if_pos (by simpa using hyd)]
        show (match ({ y with
            readptr := y.readptr + B.length,
            size := if y.readptr + B.length > y.size then y.readptr + B.length
                    else y.size } : AFF4Image).FlushChunk y.buffer with
          | Except.error e => Except.error e
          | Except.ok st1 =>
            match st1.FlushBevy with
            | Except.error e => Except.error e
            | Except.ok st2 => Except.ok { st2 with dirty := false }) = _
        rw [FlushChunk_set_rp_size]
        rw [hyb, hyc]
        dsimp only [Except.map]
        rw [FlushBevy_set_rp_size]
        rw [hmain]
        dsimp only [Except.map]
        rw [hyr, hys]
        rw [if_pos (by
          have := List.length_pos.mpr hB
          omega)]
        simp only [Nat.zero_add, List.nil_append]

/-! ### Reading one chunk back from a bevy built by FlushChunk -/

theorem offsetsOf_getD (comp : Compression) : ∀ (g : List (List Nat)) (j : Nat),
    j < g.length →
    (offsetsOf comp g).getD j 0 = (blobOf comp (g.take j)).length := by
  intro g
  induction g with
  | nil => intro j hj; simp at hj
  | cons a g ih =>
    intro j hj
    cases j with
    | zero => simp [offsetsOf, blobOf]
    | succ j =>
      have hj' : j < g.length := by simpa using hj
      show ((offsetsOf comp g).map (fun x => x + (comp.compress a).length)).getD j 0 = _
      rw [List.getD_eq_getElem _ _ (by simpa [offsetsOf_length] using hj'),
        List.getElem_map]
      rw [← List.getD_eq_getElem _ 0 (by simpa [offsetsOf_length] using hj')]
      rw [ih j hj']
      simp only [List.take_succ_cons, blobOf_cons, List.length_append]
      omega

theorem blob_drop_offset (comp : Compression) (g : List (List Nat)) (j : Nat)
    (hj : j < g.length) :
    (blobOf comp g).drop ((offsetsOf comp g).getD j 0) = blobOf comp (g.drop j) := by
  rw [offsetsOf_getD comp g j hj]
  have hsplit : blobOf comp g = blobOf comp (g.take j) ++ blobOf comp (g.drop j) := by
    rw [← blobOf_append, List.take_append_drop]
  rw [hsplit, List.drop_left]

theorem readChunk_group (comp : Compression) (cps : Nat) (g : List (List Nat))
    (chunk_id : Nat) (tell : Nat)
    (hj : chunk_id % cps < g.length)
    (htell : tell ≤ (offsetsOf comp g).getD (chunk_id % cps) 0) :
    readChunkFromBevy comp cps chunk_id (blobOf comp g) tell (offsetsOf comp g) =
      .ok (g.getD (chunk_id % cps) [],
        if chunk_id % cps = g.length - 1 then (blobOf comp g).length
        else (offsetsOf comp g).getD (chunk_id % cps + 1) 0) := by
  rw [readChunkFromBevy_eq]
  rw [offsetsOf_length]
  rw [if_neg (by omega), if_neg (by omega)]
  have hdrop : (blobOf comp g).drop ((offsetsOf comp g).getD (chunk_id % cps) 0) =
      comp.compress (g.getD (chunk_id % cps) []) ++
        blobOf comp (g.drop (chunk_id % cps + 1)) := by
    rw [blob_drop_offset comp g _ hj]
    rw [List.drop_eq_getElem_cons hj, blobOf_cons, List.getD_eq_getElem _ _ hj]
  have hoff : (offsetsOf comp g).getD (chunk_id % cps) 0 =
      (blobOf comp (g.take (chunk_id % cps))).length := offsetsOf_getD comp g _ hj
  by_cases hlast : chunk_id % cps = g.length - 1
  · simp only [if_pos hlast]
    rw [hdrop]
    have hdropnil : g.drop (chunk_id % cps + 1) = [] := by
      rw [List.drop_eq_nil_iff]
      omega
    rw [hdropnil, blobOf_nil, List.append_nil]
    have hblob : (blobOf comp g).length =
        (blobOf comp (g.take (chunk_id % cps))).length +
          (comp.compress (g.getD (chunk_id % cps) [])).length := by
      conv_lhs => rw [show blobOf comp g =
        blobOf comp (g.take (chunk_id % cps)) ++ blobOf comp (g.drop (chunk_id % cps))
        from by rw [← blobOf_append, List.take_append_drop]]
      rw [List.drop_eq_getElem_cons hj, blobOf_cons, hdropnil, blobOf_nil,
        List.append_nil, List.length_append, List.getD_eq_getElem _ _ hj]
    have htell' : tell ≤ (blobOf comp (g.take (chunk_id % cps))).length := by
      rw [hoff] at htell
      exact htell
    have htk : (comp.compress (g.getD (chunk_id % cps) [])).take
        ((blobOf comp g).length - tell) = comp.compress (g.getD (chunk_id % cps) []) :=
      List.take_of_length_le (by omega)
    rw [htk, decompress_compress]
    rw [show (offsetsOf comp g).getD (chunk_id % cps) 0 +
        (comp.compress (g.getD (chunk_id % cps) [])).length = (blobOf comp g).length
      from by rw [hoff]; omega]
  · simp only [if_neg hlast]
    have hj1 : chunk_id % cps + 1 < g.length := by omega
    have hnext : (offsetsOf comp g).getD (chunk_id % cps + 1) 0 =
        (blobOf comp (g.take (chunk_id % cps))).length +
          (comp.compress (g.getD (chunk_id % cps) [])).length := by
      rw [offsetsOf_getD comp g _ hj1]
      rw [← List.take_concat_get' g _ hj, blobOf_snoc, List.length_append,
        List.getD_eq_getElem _ _ hj]
    have hcsz : (offsetsOf comp g).getD (chunk_id % cps + 1) 0 -
        (offsetsOf comp g).getD (chunk_id % cps) 0 =
        (comp.compress (g.getD (chunk_id % cps) [])).length := by
      rw [hnext, hoff]
      omega
    rw [hcsz, hdrop, List.take_left, decompress_compress]
    rw [show (offsetsOf comp g).getD (chunk_id % cps) 0 +
        (comp.compress (g.getD (chunk_id % cps) [])).length =
        (offsetsOf comp g).getD (chunk_id % cps + 1) 0
      from by rw [hoff, hnext]]

theorem readSpanInner_succ (comp : Compression) (cps : Nat) (blob index : List Nat)
    (bevy_id chunk_id count tell : Nat) :
    readSpanInner comp cps blob index bevy_id chunk_id (count + 1) tell =
      match readChunkFromBevy comp cps chunk_id blob tell index with
      | .error e => .error e
      | .ok (data, tell') =>
        if bevy_id < (chunk_id + 1) / cps then .ok (data, 1, chunk_id + 1, count)
        else
          match readSpanInner comp cps blob index bevy_id (chunk_id + 1) count tell' with
          | .error e => .error e
          | .ok (d, k, cid, rem) => .ok (data ++ d, k + 1, cid, rem) := rfl

theorem flatten_take_one (g : List (List Nat)) (j : Nat) (hj : j < g.length) :
    ((g.drop j).take 1).flatten = g.getD j [] := by
  rw [List.drop_eq_getElem_cons hj, List.take_succ_cons, List.take_zero,
    List.flatten_cons, List.flatten_nil, List.append_nil,
    List.getD_eq_getElem g [] hj]

theorem readSpanInner_spec (comp : Compression) (cps : Nat) (g : List (List Nat))
    (hcps : 0 < cps) (hg : g.length ≤ cps) :
    ∀ (count chunk_id tell : Nat),
    chunk_id % cps + min count (cps - chunk_id % cps) ≤ g.length →
    (count = 0 ∨ tell ≤ (offsetsOf comp g).getD (chunk_id % cps) 0) →
    readSpanInner comp cps (blobOf comp g) (offsetsOf comp g) (chunk_id / cps)
        chunk_id count tell =
      .ok (((g.drop (chunk_id % cps)).take (min count (cps - chunk_id % cps))).flatten,
        min count (cps - chunk_id % cps),
        chunk_id + min count (cps - chunk_id % cps),
        count - min count (cps - chunk_id % cps)) := by
  intro count
  induction count with
  | zero =>
    intro chunk_id tell hsum htell
    simp [readSpanInner]
  | succ n ih =>
    intro chunk_id tell hsum htell
    have hjlt : chunk_id % cps < cps := Nat.mod_lt _ hcps
    have hk1 : 1 ≤ min (n + 1) (cps - chunk_id % cps) := by omega
    have hjg : chunk_id % cps < g.length := by omega
    have hT : tell ≤ (offsetsOf comp g).getD (chunk_id % cps) 0 := by
      rcases htell with h | h
      · exact absurd h (by omega)
      · exact h
    have hdm := Nat.div_add_mod chunk_id cps
    rw [readSpanInner_succ, readChunk_group comp cps g chunk_id tell hjg hT]
    dsimp only
    by_cases hbreak : chunk_id % cps = cps - 1
    · have h1 : chunk_id + 1 = cps * (chunk_id / cps + 1) := by
        rw [Nat.mul_succ]
        omega
      have hdiv : (chunk_id + 1) / cps = chunk_id / cps + 1 := by
        rw [h1, Nat.mul_div_cancel_left _ hcps]
      rw [hdiv, if_pos (by omega)]
      have hmin : min (n + 1) (cps - chunk_id % cps) = 1 := by omega
      rw [hmin, flatten_take_one g _ hjg, Nat.add_sub_cancel]
    · have h2 : chunk_id + 1 = cps * (chunk_id / cps) + (chunk_id % cps + 1) := by omega
      have hdiv : (chunk_id + 1) / cps = chunk_id / cps := by
        rw [h2, Nat.mul_add_div hcps,
          Nat.div_eq_of_lt (show chunk_id % cps + 1 < cps by omega), Nat.add_zero]
      have hmod : (chunk_id + 1) % cps = chunk_id % cps + 1 := by
        rw [h2, Nat.mul_add_mod, Nat.mod_eq_of_lt (by omega)]
      rw [hdiv, if_neg (lt_irrefl _)]
      have hminsucc : min (n + 1) (cps - chunk_id % cps) =
          min n (cps - (chunk_id % cps + 1)) + 1 := by omega
      have hsum' : (chunk_id + 1) % cps +
          min n (cps - (chunk_id + 1) % cps) ≤ g.length := by
        rw [hmod]
        omega
      have htell' : n = 0 ∨
          (if chunk_id % cps = g.length - 1 then (blobOf comp g).length
           else (offsetsOf comp g).getD (chunk_id % cps + 1) 0) ≤
            (offsetsOf comp g).getD ((chunk_id + 1) % cps) 0 := by
        by_cases hn : n = 0
        · exact Or.inl hn
        · right
          have hnotlast : ¬(chunk_id % cps = g.length - 1) := by omega
          rw [if_neg hnotlast, hmod]
      have ihh := ih (chunk_id + 1) _ hsum' htell'
      rw [hdiv, hmod] at ihh
      rw [ihh, hminsucc]
      dsimp only
      rw [show g.getD (chunk_id % cps) [] ++
          ((g.drop (chunk_id % cps + 1)).take (min n (cps - (chunk_id % cps + 1)))).flatten =
          ((g.drop (chunk_id % cps)).take (min n (cps - (chunk_id % cps + 1)) + 1)).flatten
        from by
          rw [List.drop_eq_getElem_cons hjg, List.take_succ_cons, List.flatten_cons,
            List.getD_eq_getElem g [] hjg]]
      rw [show chunk_id + 1 + min n (cps - (chunk_id % cps + 1)) =
        chunk_id + (min n (cps - (chunk_id % cps + 1)) + 1) from by omega]
      rw [show n - min n (cps - (chunk_id % cps + 1)) =
        n + 1 - (min n (cps - (chunk_id % cps + 1)) + 1) from by omega]

theorem lookupSegment_cons (e : Nat × List Nat × List Nat)
    (rest : List (Nat × List Nat × List Nat)) (bid : Nat) :
    lookupSegment (e :: rest) bid =
      if e.1 = bid then some e.2 else lookupSegment rest bid := by
  unfold lookupSegment
  by_cases h : e.1 = bid
  · rw [List.find?_cons_of_pos _ (by simp [h]), if_pos h]
  · rw [List.find?_cons_of_neg _ (by simp [h]), if_neg h]

theorem lookupSegment_mkStore (comp : Compression) :
    ∀ (gs : List (List (List Nat))) (b j : Nat), j < gs.length →
    lookupSegment (mkStore comp b gs) (b + j) =
      some (indexBytesOf comp (gs.getD j []), blobOf comp (gs.getD j [])) := by
  intro gs
  induction gs with
  | nil => intro b j hj; simp at hj
  | cons g gs ih =>
    intro b j hj
    show lookupSegment ((b, indexBytesOf comp g, blobOf comp g) :: mkStore comp (b + 1) gs)
        (b + j) = _
    rw [lookupSegment_cons]
    cases j with
    | zero => rw [if_pos (by omega)]; rfl
    | succ j =>
      rw [if_neg (by omega)]
      have := ih (b + 1) j (by simpa using hj)
      rw [show b + (j + 1) = (b + 1) + j from by omega]
      exact this

theorem readSpan_succ (comp : Compression) (cps : Nat)
    (store : List (Nat × List Nat × List Nat)) (fuel chunk_id count : Nat) :
    readSpan comp cps store (fuel + 1) chunk_id (count + 1) =
      match lookupSegment store (chunk_id / cps) with
      | none => .error .segmentMissing
      | some (indexBytes, blob) =>
        match unpackWords indexBytes with
        | none => .error .badIndex
        | some index =>
          match readSpanInner comp cps blob index (chunk_id / cps) chunk_id (count + 1) 0 with
          | .error e => .error e
          | .ok (data, k, cid, rem) =>
            match readSpan comp cps store fuel cid rem with
            | .error e => .error e
            | .ok (k2, d2) => .ok (k + k2, data ++ d2) := rfl

theorem readSpan_spec (comp : Compression) (cps : Nat) (C : List (List Nat))
    (hcps : 0 < cps)
    (hbig : ∀ g ∈ groupsOf cps C, (blobOf comp g).length < 4294967296) :
    ∀ (fuel count chunk_id : Nat), count ≤ fuel → chunk_id + count ≤ C.length →
    readSpan comp cps (mkStore comp 0 (groupsOf cps C)) fuel chunk_id count =
      .ok (count, ((C.drop chunk_id).take count).flatten) := by
  intro fuel
  induction fuel with
  | zero =>
    intro count chunk_id hcf hcc
    have hc0 : count = 0 := by omega
    subst hc0
    simp [readSpan]
  | succ f ih =>
    intro count chunk_id hcf hcc
    cases count with
    | zero => simp [readSpan]
    | succ n =>
      have hC0 : chunk_id < C.length := by omega
      have hCne : C ≠ [] := List.ne_nil_of_length_pos (by omega)
      have hjlt : chunk_id % cps < cps := Nat.mod_lt _ hcps
      have hdm2 : chunk_id / cps * cps + chunk_id % cps = chunk_id := by
        conv_rhs => rw [← Nat.div_add_mod chunk_id cps]
        rw [Nat.mul_comm]
      have hbid : chunk_id / cps < (groupsOf cps C).length := by
        rw [groupsOf_length cps hcps C hCne]
        have h1 : chunk_id ≤ C.length - 1 := by omega
        have h2 : chunk_id / cps ≤ (C.length - 1) / cps := Nat.div_le_div_right h1
        omega
      have hlook := lookupSegment_mkStore comp (groupsOf cps C) 0 (chunk_id / cps) hbid
      rw [Nat.zero_add] at hlook
      have hmul : chunk_id / cps * cps < C.length := by
        have := Nat.div_mul_le_self chunk_id cps
        omega
      have hgdef : (groupsOf cps C).getD (chunk_id / cps) [] =
          (C.drop (chunk_id / cps * cps)).take cps := groupsOf_getD cps hcps C _ hmul
      have hgmem : (groupsOf cps C).getD (chunk_id / cps) [] ∈ groupsOf cps C := by
        rw [List.getD_eq_getElem _ _ hbid]
        exact List.getElem_mem hbid
      have hblob := hbig _ hgmem
      have hglen : ((groupsOf cps C).getD (chunk_id / cps) []).length =
          min cps (C.length - chunk_id / cps * cps) := by
        rw [hgdef]
        simp [List.length_take, List.length_drop]
      have hglen_le : ((groupsOf cps C).getD (chunk_id / cps) []).length ≤ cps := by
        rw [hglen]
        omega
      have hsum : chunk_id % cps + min (n + 1) (cps - chunk_id % cps) ≤
          ((groupsOf cps C).getD (chunk_id / cps) []).length := by
        rw [hglen]
        omega
      have hinner := readSpanInner_spec comp cps ((groupsOf cps C).getD (chunk_id / cps) [])
        hcps hglen_le (n + 1) chunk_id 0 hsum (Or.inr (Nat.zero_le _))
      rw [readSpan_succ, hlook]
      dsimp only
      rw [unpackWords_indexBytesOf comp _ hblob]
      dsimp only
      rw [hinner]
      dsimp only
      have hrec := ih (n + 1 - min (n + 1) (cps - chunk_id % cps))
        (chunk_id + min (n + 1) (cps - chunk_id % cps)) (by omega) (by omega)
      rw [hrec]
      dsimp only
      have hseg1 : (((groupsOf cps C).getD (chunk_id / cps) []).drop (chunk_id % cps)).take
          (min (n + 1) (cps - chunk_id % cps)) =
          (C.drop chunk_id).take (min (n + 1) (cps - chunk_id % cps)) := by
        rw [hgdef, List.drop_take, List.drop_drop, hdm2, List.take_take]
        congr 1
        omega
      have hdata : ((((groupsOf cps C).getD (chunk_id / cps) []).drop (chunk_id % cps)).take
            (min (n + 1) (cps - chunk_id % cps))).flatten ++
          ((C.drop (chunk_id + min (n + 1) (cps - chunk_id % cps))).take
            (n + 1 - min (n + 1) (cps - chunk_id % cps))).flatten =
          ((C.drop chunk_id).take (n + 1)).flatten := by
        rw [hseg1, ← List.flatten_append]
        congr 1
        rw [show C.drop (chunk_id + min (n + 1) (cps - chunk_id % cps)) =
          (C.drop chunk_id).drop (min (n + 1) (cps - chunk_id % cps)) from by
            rw [List.drop_drop, Nat.add_comm]]
        rw [← List.take_add]
        congr 1
        omega
      rw [hdata]
      rw [show min (n + 1) (cps - chunk_id % cps) +
        (n + 1 - min (n + 1) (cps - chunk_id % cps)) = n + 1 from by omega]

theorem readLoop_succ (comp : Compression) (cps : Nat)
    (store : List (Nat × List Nat × List Nat)) (fuel chunk_id : Nat) (ctr : Int)
    (acc : List Nat) :
    readLoop comp cps store (fuel + 1) chunk_id ctr acc =
      if ctr > 0 then
        match readSpan comp cps store ctr.toNat chunk_id ctr.toNat with
        | .error e => .error e
        | .ok (k, data) =>
          if k = 0 then .ok acc
          else readLoop comp cps store fuel chunk_id (ctr - k) (acc ++ data)
      else .ok acc := rfl

theorem readLoop_via_span (comp : Compression) (cps : Nat)
    (store : List (Nat × List Nat × List Nat)) (m chunk_id : Nat) (data : List Nat)
    (hm : 0 < m)
    (hspan : readSpan comp cps store m chunk_id m = .ok (m, data)) :
    readLoop comp cps store m chunk_id (m : Int) [] = .ok data := by
  obtain ⟨n, rfl⟩ : ∃ n, m = n + 1 := ⟨m - 1, by omega⟩
  rw [readLoop_succ, if_pos (by omega)]
  rw [show ((((n + 1 : Nat)) : Int)).toNat = n + 1 from by omega]
  rw [hspan]
  dsimp only
  rw [if_neg (by omega)]
  rw [readLoop_nonpos _ _ _ _ _ _ _ (by omega)]
  simp

theorem groupsOf_drop_take_flatten (cs : Nat) (hcs : 0 < cs) (B : List Nat) :
    ∀ q k, (((groupsOf cs B).drop q).take k).flatten =
      (B.drop (q * cs)).take (k * cs) := by
  intro q k
  by_cases hB : B.length = 0
  · have hBnil : B = [] := List.eq_nil_of_length_eq_zero hB
    subst hBnil
    simp [groupsOf_nil]
  · rw [groupsOf_cons cs hcs B (fun h => hB (by rw [h]; rfl))]
    cases q with
    | zero =>
      cases k with
      | zero => simp
      | succ m =>
        rw [List.drop_zero, List.take_succ_cons, List.flatten_cons]
        have h1 : 0 < cs := hcs
        have h2 : B.length ≠ 0 := hB
        have ih := groupsOf_drop_take_flatten cs hcs (B.drop cs) 0 m
        simp only [List.drop_zero, Nat.zero_mul] at ih
        rw [ih]
        simp only [Nat.zero_mul, List.drop_zero]
        rw [show (m + 1) * cs = cs + m * cs from by ring, List.take_add]
    | succ p =>
      rw [List.drop_succ_cons]
      have h1 : 0 < cs := hcs
      have h2 : B.length ≠ 0 := hB
      have ih := groupsOf_drop_take_flatten cs hcs (B.drop cs) p k
      rw [ih, List.drop_drop]
      rw [show cs + p * cs = (p + 1) * cs from by ring]
termination_by B.length
decreasing_by
  all_goals simp only [List.length_drop]; omega

/-- Master random-access read characterization: write `B` to a fresh
stream, flush, seek to `o` and read `L` bytes.  When the window stays
inside the stream and the visited chunk range stays inside the
existing chunks, the read succeeds and returns the bytes at offset `o`
truncated to `min L ((L / cs + 1) * cs - o % cs)`: the loop visits
`L / cs + 1` chunks starting at chunk `o / cs`, trims `o % cs` leading
bytes and truncates to `L`. -/
theorem readAt_spec (cs cps : Nat) (comp : Compression) (B : List Nat) (o L : Nat)
    (hcs : 0 < cs) (hcps : 0 < cps) (hB : B ≠ [])
    (hbig : ∀ g ∈ groupsOf cps (groupsOf cs B), (blobOf comp g).length < 4294967296)
    (hoL : o + L ≤ B.length)
    (hdiv : o / cs + L / cs ≤ (B.length - 1) / cs) :
    readAt cs cps comp B o L =
      .ok ((B.drop o).take (min L ((L / cs + 1) * cs - o % cs))) := by
  unfold readAt
  rw [writeFlushed_spec cs cps comp B hcs hcps hB hbig]
  dsimp only
  rw [Read_eq]
  dsimp only [AFF4Image.Seek]
  have hBpos : 0 < B.length := List.length_pos.mpr hB
  have hlen : min ((L : Nat) : Int) (((B.length : Nat) : Int) - ((o : Nat) : Int)) =
      ((L : Nat) : Int) := by
    rw [min_eq_left]
    omega
  rw [hlen]
  have hfd : Int.fdiv ((L : Nat) : Int) ((cs : Nat) : Int) + 1 =
      (((L / cs + 1 : Nat)) : Int) := by
    rw [show ((L : Nat) : Int) = Int.ofNat L from rfl,
      show ((cs : Nat) : Int) = Int.ofNat cs from rfl, fdiv_ofNat_ofNat,
      Int.ofNat_eq_natCast]
    push_cast
    ring
  rw [hfd]
  rw [show ((((L / cs + 1 : Nat)) : Int)).toNat = L / cs + 1 from
    Int.toNat_natCast _]
  have hClen : (groupsOf cs B).length = (B.length - 1) / cs + 1 :=
    groupsOf_length cs hcs B hB
  have hspan := readSpan_spec comp cps (groupsOf cs B) hcps hbig
    (L / cs + 1) (L / cs + 1) (o / cs) (Nat.le_refl _) (by omega)
  rw [readLoop_via_span comp cps _ (L / cs + 1) (o / cs) _ (Nat.succ_pos _) hspan]
  dsimp only
  rw [groupsOf_drop_take_flatten cs hcs B (o / cs) (L / cs + 1)]
  have hom : o / cs * cs + o % cs = o := by
    conv_rhs => rw [← Nat.div_add_mod o cs]
    rw [Nat.mul_comm]
  have hfinal : (((B.drop (o / cs * cs)).take ((L / cs + 1) * cs)).drop (o % cs)).take L =
      (B.drop o).take (min L ((L / cs + 1) * cs - o % cs)) := by
    rw [List.drop_take, List.drop_drop, hom, List.take_take]
  by_cases ho : o % cs = 0
  · rw [if_neg (by omega)]
    unfold pySlice
    rw [if_pos (by omega)]
    rw [show (((L : Nat) : Int)).toNat = L from by simp]
    rw [← hfinal, ho, List.drop_zero]
  · rw [if_pos ho]
    unfold pySlice
    rw [if_pos (by omega)]
    rw [show (((L : Nat) : Int)).toNat = L from by simp]
    rw [hfinal]

/-! ### Claims C1 and C2: round trip and random access -/

theorem div_pred_eq (n cs : Nat) (hcs : 0 < cs) (hn : 0 < n) (hr : n % cs ≠ 0) :
    (n - 1) / cs = n / cs := by
  have hd : cs * (n / cs) + n % cs = n := Nat.div_add_mod n cs
  have hm : n % cs < cs := Nat.mod_lt _ hcs
  have h1 : n - 1 = cs * (n / cs) + (n % cs - 1) := by omega
  rw [h1, Nat.mul_add_div hcs,
    Nat.div_eq_of_lt (show n % cs - 1 < cs from by omega), Nat.add_zero]

/-- Counterexample to claim C1 as stated: with chunk_size 4,
chunks_per_segment 2 and STORED compression, writing the 4-byte
sequence "ABCD" (a multiple of the chunk size), flushing and reading 4
bytes from offset 0 raises the bevy-index-too-short error instead of
returning "ABCD": the read visits `4/4 + 1 = 2` chunks but only chunk
0 exists. -/
theorem C1_counterexample :
    roundTrip 4 2 Compression.stored [65, 66, 67, 68] = .error .indexTooShort ∧
    roundTrip 4 2 Compression.stored [65, 66, 67, 68] ≠ .ok [65, 66, 67, 68] := by
  refine ⟨rfl, ?_⟩
  intro h
  rw [show roundTrip 4 2 Compression.stored [65, 66, 67, 68] =
    .error .indexTooShort from rfl] at h
  exact Except.noConfusion h

/-- C1 amended: for a nonempty byte sequence `B` whose length is NOT a
multiple of the chunk size (and positive chunk parameters with bevy
blobs fitting the 32-bit offset packing), writing `B` to a fresh
stream, flushing, seeking to offset 0 and reading `len(B)` bytes
returns exactly `B`.  When `len(B)` is a positive multiple of the
chunk size the round trip instead errors, because the read loop
overshoots by one chunk past the last existing chunk
(counterexample `C1_counterexample`). -/
theorem C1_roundtrip_amended (cs cps : Nat) (comp : Compression) (B : List Nat)
    (hcs : 0 < cs) (hcps : 0 < cps) (hB : B ≠ [])
    (hbound : cps * (cs + 2) < 4294967296)
    (hrem : B.length % cs ≠ 0) :
    roundTrip cs cps comp B = .ok B := by
  have hbig := bevy_blob_bound comp cs cps B hbound
  have hdm : B.length / cs * cs + B.length % cs = B.length := by
    conv_rhs => rw [← Nat.div_add_mod B.length cs]
    rw [Nat.mul_comm]
  have hm : B.length % cs < cs := Nat.mod_lt _ hcs
  have hBpos : 0 < B.length := List.length_pos.mpr hB
  have hpred : (B.length - 1) / cs = B.length / cs :=
    div_pred_eq B.length cs hcs hBpos hrem
  have h := readAt_spec cs cps comp B 0 B.length hcs hcps hB hbig (by omega)
    (by rw [Nat.zero_div, hpred]; omega)
  rw [show roundTrip cs cps comp B = readAt cs cps comp B 0 B.length from rfl, h]
  rw [List.drop_zero, Nat.zero_mod, Nat.sub_zero]
  rw [min_eq_left (by rw [Nat.succ_mul]; omega)]
  rw [List.take_length]

theorem C1_witness :
    roundTrip 4 2 Compression.stored [65, 66, 67, 68, 69, 70, 71, 72, 73, 74] =
      .ok [65, 66, 67, 68, 69, 70, 71, 72, 73, 74] :=
  C1_roundtrip_amended 4 2 Compression.stored
    [65, 66, 67, 68, 69, 70, 71, 72, 73, 74]
    (by decide) (by decide) (by decide) (by decide) (by decide)

/-- Counterexample to claim C2 as stated: on the flushed 10-byte stream
"ABCDEFGHIJ" with chunk_size 4, reading the window `o = 3, L = 3`
(inside `[0, size)`) returns only "D" instead of "DEF": the loop reads
`3/4 + 1 = 1` chunk, chunk 0, whose bytes past the in-chunk offset 3
are a single byte, so the visited chunks do not cover the window. -/
theorem C2_counterexample :
    readAt 4 2 Compression.stored [65, 66, 67, 68, 69, 70, 71, 72, 73, 74] 3 3 =
      .ok [68] ∧
    ([68] : List Nat) ≠
      (([65, 66, 67, 68, 69, 70, 71, 72, 73, 74] : List Nat).drop 3).take 3 := by
  exact ⟨rfl, by decide⟩

/-- C2 amended: for a window `[o, o+L)` inside the written stream whose
visited chunk range `o/chunk_size .. o/chunk_size + L/chunk_size` stays
inside the existing chunks, `Read` succeeds but returns the slice at
`o` truncated to `min L ((L/chunk_size + 1)*chunk_size - o%chunk_size)`
bytes: the `L/chunk_size + 1` visited chunks cover the window only
when `o%chunk_size + L%chunk_size ≤ chunk_size`, and in that aligned
case (second conjunct) the read returns exactly the `L` requested
bytes.  Otherwise the read silently under-reads (counterexample
`C2_counterexample`). -/
theorem C2_random_access_amended (cs cps : Nat) (comp : Compression) (B : List Nat)
    (o L : Nat) (hcs : 0 < cs) (hcps : 0 < cps) (hB : B ≠ [])
    (hbound : cps * (cs + 2) < 4294967296)
    (hoL : o + L ≤ B.length)
    (hdiv : o / cs + L / cs ≤ (B.length - 1) / cs) :
    readAt cs cps comp B o L =
      .ok ((B.drop o).take (min L ((L / cs + 1) * cs - o % cs))) ∧
    (o % cs + L % cs ≤ cs → readAt cs cps comp B o L = .ok ((B.drop o).take L)) := by
  have hbig := bevy_blob_bound comp cs cps B hbound
  have h := readAt_spec cs cps comp B o L hcs hcps hB hbig hoL hdiv
  refine ⟨h, fun hal => ?_⟩
  have hdm : L / cs * cs + L % cs = L := by
    conv_rhs => rw [← Nat.div_add_mod L cs]
    rw [Nat.mul_comm]
  have hm : o % cs < cs := Nat.mod_lt _ hcs
  rw [h, min_eq_left (by rw [Nat.succ_mul]; omega)]

theorem C2_witness :
    readAt 4 2 Compression.stored [65, 66, 67, 68, 69, 70, 71, 72, 73, 74] 4 3 =
      .ok [69, 70, 71] :=
  (C2_random_access_amended 4 2 Compression.stored
      [65, 66, 67, 68, 69, 70, 71, 72, 73, 74] 4 3
      (by decide) (by decide) (by decide) (by decide) (by decide) (by decide)).2
    (by decide)

/-! ### Claim C6: bevy index integrity -/

theorem FlushBevy_indexLen {st st' : AFF4Image} (h : st.FlushBevy = .ok st')
    (hinv : st.bevy_index.length = 4 * st.chunk_count_in_bevy) :
    st'.bevy_index.length = 4 * st'.chunk_count_in_bevy := by
  unfold AFF4Image.FlushBevy at h
  split at h
  · exact Except.noConfusion h
  · split at h
    · injection h with h2
      subst h2
      exact hinv
    · injection h with h2
      subst h2
      rfl

theorem FlushChunk_indexLen {st st' : AFF4Image} (c : List Nat)
    (h : st.FlushChunk c = .ok st')
    (hinv : st.bevy_index.length = 4 * st.chunk_count_in_bevy) :
    st'.bevy_index.length = 4 * st'.chunk_count_in_bevy := by
  rw [FlushChunk_eq] at h
  split at h
  · split at h
    · refine FlushBevy_indexLen h ?_
      simp only [List.length_append]
      simp only [pack32, List.length_cons, List.length_nil]
      omega
    · injection h with h2
      subst h2
      simp only [List.length_append]
      simp only [pack32, List.length_cons, List.length_nil]
      omega
  · exact Except.noConfusion h

theorem writeLoop_indexLen : ∀ (fuel : Nat) (st st' : AFF4Image),
    AFF4Image.writeLoop fuel st = .ok st' →
    st.bevy_index.length = 4 * st.chunk_count_in_bevy →
    st'.bevy_index.length = 4 * st'.chunk_count_in_bevy := by
  intro fuel
  induction fuel with
  | zero =>
    intro st st' h hinv
    unfold AFF4Image.writeLoop at h
    split at h
    · exact Except.noConfusion h
    · injection h with h2
      subst h2
      exact hinv
  | succ f ih =>
    intro st st' h hinv
    rw [writeLoop_succ] at h
    split at h
    · cases hfc : AFF4Image.FlushChunk { st with buffer := st.buffer.drop st.chunk_size }
          (st.buffer.take st.chunk_size) with
      | error e => rw [hfc] at h; exact Except.noConfusion h
      | ok st2 =>
        rw [hfc] at h
        dsimp only at h
        exact ih st2 st' h (FlushChunk_indexLen _ hfc hinv)
    · injection h with h2
      subst h2
      exact hinv

theorem Write_indexLen {st st' : AFF4Image} (data : List Nat)
    (h : st.Write data = .ok st')
    (hinv : st.bevy_index.length = 4 * st.chunk_count_in_bevy) :
    st'.bevy_index.length = 4 * st'.chunk_count_in_bevy := by
  rw [Write_eq] at h
  cases hwl : AFF4Image.writeLoop (st.buffer ++ data).length
      { st with dirty := true, buffer := st.buffer ++ data } with
  | error e => rw [hwl] at h; exact Except.noConfusion h
  | ok st2 =>
    rw [hwl] at h
    dsimp only at h
    injection h with h2
    subst h2
    have h3 := writeLoop_indexLen (st.buffer ++ data).length
      { st with dirty := true, buffer := st.buffer ++ data } st2 hwl hinv
    exact h3

theorem Flush_indexLen {st st' : AFF4Image} (h : st.Flush = .ok st')
    (hinv : st.bevy_index.length = 4 * st.chunk_count_in_bevy) :
    st'.bevy_index.length = 4 * st'.chunk_count_in_bevy := by
  unfold AFF4Image.Flush at h
  split at h
  · cases hfc : st.FlushChunk st.buffer with
    | error e => rw [hfc] at h; exact Except.noConfusion h
    | ok st1 =>
      rw [hfc] at h
      dsimp only at h
      cases hfb : st1.FlushBevy with
      | error e => rw [hfb] at h; exact Except.noConfusion h
      | ok st2 =>
        rw [hfb] at h
        dsimp only at h
        injection h with h2
        subst h2
        have h3 := FlushBevy_indexLen hfb (FlushChunk_indexLen _ hfc hinv)
        exact h3
  · injection h with h2
    subst h2
    exact hinv

/-- C6: after `N` nonempty chunks (`1 ≤ N ≤ chunks_per_segment`) are
flushed into one bevy starting from a clean bevy state, the bevy index
(the pending `bevy_index` when the bevy is still open, or the
persisted index segment of the just-closed bevy when `N` equals
`chunks_per_segment`) decodes as exactly `N` unsigned 32-bit
little-endian offsets that are monotonically non-decreasing and start
at 0; moreover the byte length of the pending `bevy_index` equals
`4 * chunk_count_in_bevy` there, and that equality is preserved by
every `Write` and every `Flush`. -/
theorem C6_index_integrity :
    (∀ (st0 : AFF4Image) (g : List (List Nat)),
      st0.has_volume = true → st0.bevy = [] → st0.bevy_index = [] →
      st0.chunk_count_in_bevy = 0 →
      1 ≤ g.length → g.length ≤ st0.chunks_per_segment →
      (blobOf st0.compression g).length < 4294967296 →
      (∀ c ∈ g, c ≠ []) →
      ∃ st' offsets,
        foldFlushChunk g st0 = .ok st' ∧
        unpackWords (if g.length < st0.chunks_per_segment then st'.bevy_index
          else (st'.store.getD (st'.store.length - 1) (0, [], [])).2.1) =
          some offsets ∧
        offsets.length = g.length ∧
        offsets.Chain' (fun a b => a ≤ b) ∧
        offsets.getD 0 0 = 0 ∧
        st'.bevy_index.length = 4 * st'.chunk_count_in_bevy) ∧
    (∀ (st st' : AFF4Image) (data : List Nat),
      st.bevy_index.length = 4 * st.chunk_count_in_bevy →
      st.Write data = .ok st' →
      st'.bevy_index.length = 4 * st'.chunk_count_in_bevy) ∧
    (∀ (st st' : AFF4Image),
      st.bevy_index.length = 4 * st.chunk_count_in_bevy →
      st.Flush = .ok st' →
      st'.bevy_index.length = 4 * st'.chunk_count_in_bevy) := by
  refine ⟨?_, fun st st' data hinv h => Write_indexLen data h hinv,
    fun st st' hinv h => Flush_indexLen h hinv⟩
  intro st0 g hvol hb hi hc hg1 hgcps hbig hne
  have hcps : 0 < st0.chunks_per_segment := by omega
  have hfold := foldFlushChunk_oneGroup st0 g [] hvol
    (by simp only [List.length_nil]; omega)
    (by simp only [List.length_nil]; omega)
    hbig hne
  rw [midState_nil st0 hb hi hc] at hfold
  simp only [List.length_nil, Nat.zero_add, List.nil_append] at hfold
  have hidx := unpackWords_indexBytesOf st0.compression g hbig
  have hilen : (indexBytesOf st0.compression g).length =
      4 * (offsetsOf st0.compression g).length :=
    unpackWords_length _ _ hidx
  have hhead : (offsetsOf st0.compression g).getD 0 0 = 0 := by
    cases g with
    | nil => simp at hg1
    | cons c g' => rfl
  by_cases hlt : g.length < st0.chunks_per_segment
  · rw [if_pos hlt] at hfold
    refine ⟨midState st0 g, offsetsOf st0.compression g, hfold, ?_, ?_, ?_, hhead, ?_⟩
    · rw [if_pos hlt]
      exact hidx
    · exact offsetsOf_length st0.compression g
    · exact offsetsOf_chain st0.compression g
    · show (indexBytesOf st0.compression g).length = 4 * g.length
      rw [hilen, offsetsOf_length]
  · rw [if_neg hlt] at hfold
    refine ⟨_, offsetsOf st0.compression g, hfold, ?_, ?_, ?_, hhead, ?_⟩
    · rw [if_neg hlt]
      show unpackWords (((st0.store ++ [(st0.bevy_number,
          indexBytesOf st0.compression g, blobOf st0.compression g)]).getD
          ((st0.store ++ [(st0.bevy_number, indexBytesOf st0.compression g,
            blobOf st0.compression g)]).length - 1) (0, [], [])).2.1) =
        some (offsetsOf st0.compression g)
      rw [List.length_append, List.length_cons, List.length_nil]
      rw [show st0.store.length + (0 + 1) - 1 = st0.store.length from by omega]
      rw [List.getD_append_right _ _ _ _ (Nat.le_refl _), Nat.sub_self]
      exact hidx
    · exact offsetsOf_length st0.compression g
    · exact offsetsOf_chain st0.compression g
    · rfl

theorem C6_witness :
    ∃ st' offsets,
      foldFlushChunk [[65, 66, 67, 68]] (freshImage 4 2 Compression.stored) =
        .ok st' ∧
      unpackWords (if ([[65, 66, 67, 68]] : List (List Nat)).length <
          (freshImage 4 2 Compression.stored).chunks_per_segment then
          st'.bevy_index
        else (st'.store.getD (st'.store.length - 1) (0, [], [])).2.1) =
        some offsets ∧
      offsets.length = ([[65, 66, 67, 68]] : List (List Nat)).length ∧
      offsets.Chain' (fun a b => a ≤ b) ∧
      offsets.getD 0 0 = 0 ∧
      st'.bevy_index.length = 4 * st'.chunk_count_in_bevy :=
  C6_index_integrity.1 (freshImage 4 2 Compression.stored) [[65, 66, 67, 68]]
    rfl rfl rfl rfl (by decide) (by decide) (by decide) (by decide)
